import Mathlib

/-!
A shallow embedding of the go-refluxdb core: the InfluxDB line-protocol
codec (package `protocol`: `Parse` and `LineProtocol.String`) and the v1
query handler (`handleV1Query` in package `server`), together with
theorems checking the specification's claims against those definitions.

Strings are modelled as lists of characters (`GoStr`); Go's byte indices
coincide with character indices on the inputs considered here (ASCII).
Machine integers (`int64`) are modelled as `Int` with explicit range
checks where the Go code performs them (`strconv.ParseInt`).  Fallible Go
code, including the two reachable runtime panics (an out-of-range string
slice and an out-of-range slice index), is modelled by the `GoResult`
type with an explicit `panicked` outcome.
-/

namespace Refluxdb

/-- Go strings, modelled as lists of characters. -/
abbrev GoStr := List Char

/-- Embed a Lean string literal as a `GoStr`. -/
def gostr (s : String) : GoStr := s.data

/-- White-space characters recognised by Go's `strings.TrimSpace`
(the ASCII portion of Unicode white space, which covers every input
here), by character code: space, tab, LF, VT, FF, CR. -/
def isGoSpace (c : Char) : Bool :=
  c.toNat = 32 || c.toNat = 9 || c.toNat = 10 || c.toNat = 11 ||
    c.toNat = 12 || c.toNat = 13

/-- Go `strings.TrimSpace`. -/
def goTrimSpace (s : GoStr) : GoStr :=
  ((s.dropWhile isGoSpace).reverse.dropWhile isGoSpace).reverse

/-- Go `strings.HasPrefix s p`. -/
def goHasPfx : GoStr → GoStr → Bool
  | _, [] => true
  | [], _ :: _ => false
  | c :: s, p :: ps => c = p && goHasPfx s ps

/-- Go `strings.HasSuffix s f`. -/
def goHasSfx (s f : GoStr) : Bool := goHasPfx s.reverse f.reverse

/-- Go `strings.Index s sub`: position of the first occurrence of `sub`
in `s`, or `none` (Go returns `-1`). -/
def goIndexOf : GoStr → GoStr → Option Nat
  | s, sub =>
    if goHasPfx s sub then some 0
    else
      match s with
      | [] => none
      | _ :: t => (goIndexOf t sub).map (· + 1)

/-- Go `strings.Contains`. -/
def goContains (s sub : GoStr) : Bool := (goIndexOf s sub).isSome

/-- Go `strings.SplitN s sep 2` (for non-empty `sep`): one chunk when the
separator does not occur, otherwise the part before the first occurrence
and everything after it. -/
def goSplitN2 (s sep : GoStr) : List GoStr :=
  match goIndexOf s sep with
  | none => [s]
  | some i => [s.take i, s.drop (i + sep.length)]

theorem goHasPfx_length {s sub : GoStr} (h : goHasPfx s sub = true) :
    sub.length ≤ s.length := by
  induction s generalizing sub with
  | nil =>
    cases sub with
    | nil => simp
    | cons p ps => simp [goHasPfx] at h
  | cons c t ih =>
    cases sub with
    | nil => simp
    | cons p ps =>
      simp only [goHasPfx, Bool.and_eq_true] at h
      have := ih h.2
      simp only [List.length_cons]
      omega

theorem goIndexOf_some_bound {s sub : GoStr} {i : Nat} (hsub : sub ≠ [])
    (h : goIndexOf s sub = some i) : s ≠ [] ∧ i + sub.length ≤ s.length := by
  induction s generalizing i with
  | nil =>
    rw [goIndexOf] at h
    cases sub with
    | nil => exact absurd rfl hsub
    | cons p ps => simp [goHasPfx] at h
  | cons c t ih =>
    rw [goIndexOf] at h
    by_cases hp : goHasPfx (c :: t) sub
    · simp only [hp, if_true, Option.some.injEq] at h
      subst h
      exact ⟨by simp, by simpa using goHasPfx_length hp⟩
    · rw [if_neg hp] at h
      cases hidx : goIndexOf t sub with
      | none => simp [hidx] at h
      | some j =>
        simp only [hidx, Option.map_some', Option.some.injEq] at h
        subst h
        have := (ih hidx).2
        refine ⟨by simp, ?_⟩
        simp only [List.length_cons]
        omega

/-- Fuel-driven worker for `goSplitOn`; any fuel exceeding the length of
the string behaves identically (`goSplitOnFuel_congr`), and the wrapper
always supplies enough. -/
def goSplitOnFuel : Nat → GoStr → GoStr → List GoStr
  | 0, s, _ => [s]
  | fuel + 1, s, sep =>
    match goIndexOf s sep with
    | none => [s]
    | some i => s.take i :: goSplitOnFuel fuel (s.drop (i + sep.length)) sep

/-- Go `strings.Split s sep` for non-empty `sep` (every call site passes a
non-empty separator; the `sep = []` case is unused and returns `[s]`). -/
def goSplitOn (s sep : GoStr) : List GoStr :=
  if sep = [] then [s] else goSplitOnFuel (s.length + 1) s sep

theorem goSplitOnFuel_congr {f1 f2 : Nat} {s sep : GoStr} (hsep : sep ≠ [])
    (h1 : s.length < f1) (h2 : s.length < f2) :
    goSplitOnFuel f1 s sep = goSplitOnFuel f2 s sep := by
  induction f1 generalizing f2 s with
  | zero => omega
  | succ f1 ih =>
    cases f2 with
    | zero => omega
    | succ f2 =>
      cases hidx : goIndexOf s sep with
      | none => simp only [goSplitOnFuel, hidx]
      | some i =>
        have hb := goIndexOf_some_bound hsep hidx
        have hlen : sep.length ≥ 1 := by
          cases sep with
          | nil => exact absurd rfl hsep
          | cons a l => simp
        have hs : s.length ≥ 1 := by
          cases hse : s with
          | nil => exact absurd hse hb.1
          | cons a l => simp
        have hd : (s.drop (i + sep.length)).length < f1 := by
          simp only [List.length_drop]; omega
        have hd2 : (s.drop (i + sep.length)).length < f2 := by
          simp only [List.length_drop]; omega
        simp only [goSplitOnFuel, hidx]
        rw [ih hd hd2]

/-- Characteristic equation of `goSplitOn` for non-empty separators. -/
theorem goSplitOn_eq (s : GoStr) {sep : GoStr} (hsep : sep ≠ []) :
    goSplitOn s sep =
      match goIndexOf s sep with
      | none => [s]
      | some i => s.take i :: goSplitOn (s.drop (i + sep.length)) sep := by
  cases hidx : goIndexOf s sep with
  | none =>
    show goSplitOn s sep = [s]
    simp only [goSplitOn, if_neg hsep, goSplitOnFuel, hidx]
  | some i =>
    have hb := goIndexOf_some_bound hsep hidx
    have hlen : sep.length ≥ 1 := by
      cases sep with
      | nil => exact absurd rfl hsep
      | cons a l => simp
    have hs : s.length ≥ 1 := by
      cases hse : s with
      | nil => exact absurd hse hb.1
      | cons a l => simp
    show goSplitOn s sep = s.take i :: goSplitOn (s.drop (i + sep.length)) sep
    have h1 : goSplitOnFuel (s.length + 1) s sep =
        s.take i :: goSplitOnFuel s.length (s.drop (i + sep.length)) sep := by
      have hstep : goSplitOnFuel (s.length + 1) s sep =
          match goIndexOf s sep with
          | none => [s]
          | some j => s.take j :: goSplitOnFuel s.length (s.drop (j + sep.length)) sep := rfl
      rw [hstep, hidx]
    have h2 : goSplitOnFuel s.length (s.drop (i + sep.length)) sep =
        goSplitOnFuel ((s.drop (i + sep.length)).length + 1) (s.drop (i + sep.length)) sep :=
      goSplitOnFuel_congr hsep (by simp only [List.length_drop]; omega)
        (Nat.lt_succ_self _)
    simp only [goSplitOn, if_neg hsep]
    rw [h1, h2]

/-- Go `strings.Trim s cutset`: strip leading and trailing characters
that occur in `cutset`. -/
def goTrimCut (s cutset : GoStr) : GoStr :=
  ((s.dropWhile (cutset.contains ·)).reverse.dropWhile (cutset.contains ·)).reverse

/-- Go `strings.TrimPrefix`. -/
def goTrimPfx (s p : GoStr) : GoStr :=
  if goHasPfx s p then s.drop p.length else s

/-- Go `strings.TrimSuffix`. -/
def goTrimSfx (s f : GoStr) : GoStr :=
  if goHasSfx s f then s.take (s.length - f.length) else s

/-- ASCII lower-casing of one character (the fragment of Go's
`strings.ToLower` exercised by this code; all inputs are ASCII):
codes 65-90 (`A`-`Z`) shift up by 32. -/
def goLowerChar (c : Char) : Char :=
  if 65 ≤ c.toNat && c.toNat ≤ 90 then Char.ofNat (c.toNat + 32) else c

/-- Go `strings.ToLower` (ASCII). -/
def goToLower (s : GoStr) : GoStr := s.map goLowerChar

theorem char_toNat_ofNat {n : Nat} (h : n < 55296) : (Char.ofNat n).toNat = n := by
  have hv : n.isValidChar := Or.inl h
  unfold Char.ofNat
  rw [dif_pos hv]
  unfold Char.ofNatAux Char.toNat
  simp [UInt32.ofNat', UInt32.toNat]

theorem goLowerChar_toNat (c : Char) :
    (goLowerChar c).toNat =
      if 65 ≤ c.toNat ∧ c.toNat ≤ 90 then c.toNat + 32 else c.toNat := by
  unfold goLowerChar
  by_cases h : 65 ≤ c.toNat ∧ c.toNat ≤ 90
  · rw [if_pos (by simp [h.1, h.2]), if_pos h, char_toNat_ofNat (by omega)]
  · rw [if_neg (by simpa using fun h1 h2 => h ⟨h1, h2⟩), if_neg h]

theorem goLowerChar_idem (c : Char) :
    goLowerChar (goLowerChar c) = goLowerChar c := by
  have ht := goLowerChar_toNat c
  have hcond : ¬ (65 ≤ (goLowerChar c).toNat ∧ (goLowerChar c).toNat ≤ 90) := by
    rw [ht]; split_ifs with h <;> omega
  conv_lhs => rw [goLowerChar]
  rw [if_neg (by simpa using fun h1 h2 => hcond ⟨h1, h2⟩)]

theorem isGoSpace_goLowerChar (c : Char) :
    isGoSpace (goLowerChar c) = isGoSpace c := by
  have ht := goLowerChar_toNat c
  apply Bool.eq_iff_iff.mpr
  simp only [isGoSpace, Bool.or_eq_true, decide_eq_true_eq, ht]
  split_ifs with h <;> omega

theorem goToLower_idem (s : GoStr) : goToLower (goToLower s) = goToLower s := by
  unfold goToLower
  rw [List.map_map]
  exact List.map_congr_left fun c _ => goLowerChar_idem c

/-- Worker for `goFields`: `acc` is the current (reversed) token. -/
def goFieldsAcc : GoStr → GoStr → List GoStr
  | [], acc => if acc = [] then [] else [acc.reverse]
  | c :: t, acc =>
    if isGoSpace c then
      if acc = [] then goFieldsAcc t [] else acc.reverse :: goFieldsAcc t []
    else goFieldsAcc t (c :: acc)

/-- Go `strings.Fields`: substrings separated by runs of white space. -/
def goFields (s : GoStr) : List GoStr := goFieldsAcc s []

/-- Go `strings.ReplaceAll s old new` for non-empty `old`
(equivalently: split on `old` and re-join with `new`). -/
def goReplaceAll (s old new : GoStr) : GoStr :=
  List.intercalate new (goSplitOn s old)

/-- Numeric value of a string of ASCII digits. -/
def digitsToNat (s : GoStr) : Nat :=
  s.foldl (fun a c => a * 10 + (c.toNat - 48)) 0

/-- Go `strconv.ParseInt(s, 10, 64)`: an optional sign followed by at
least one ASCII digit (base 10 forbids underscores), whose value must fit
in a signed 64-bit integer; any failure (Go's non-nil error) is `none`. -/
def goParseInt64 (s : GoStr) : Option Int :=
  let signed : Bool × GoStr :=
    match s with
    | [] => (false, [])
    | c :: t =>
      if c = '+' then (false, t)
      else if c = '-' then (true, t)
      else (false, c :: t)
  let neg := signed.1
  let ds := signed.2
  if ds = [] then none
  else if ds.all Char.isDigit then
    let v : Int := if neg then -(digitsToNat ds : Int) else (digitsToNat ds : Int)
    if -(2 ^ 63) ≤ v && v ≤ 2 ^ 63 - 1 then some v else none
  else none

/-- Fuel-driven worker for `natToChars`; `n + 1` fuel always suffices. -/
def natToCharsFuel : Nat → Nat → GoStr
  | 0, _ => []
  | fuel + 1, n =>
    if n < 10 then [Char.ofNat (48 + n)]
    else natToCharsFuel fuel (n / 10) ++ [Char.ofNat (48 + n % 10)]

/-- Decimal digits of `n`, most significant first. -/
def natToChars (n : Nat) : GoStr := natToCharsFuel (n + 1) n

theorem natToCharsFuel_congr {f1 f2 n : Nat} (h1 : n < f1) (h2 : n < f2) :
    natToCharsFuel f1 n = natToCharsFuel f2 n := by
  induction f1 generalizing f2 n with
  | zero => omega
  | succ f1 ih =>
    cases f2 with
    | zero => omega
    | succ f2 =>
      simp only [natToCharsFuel]
      by_cases hn : n < 10
      · simp [hn]
      · rw [if_neg hn, if_neg hn]
        have hd : n / 10 < f1 := by
          have := Nat.div_lt_self (by omega : 0 < n) (by norm_num : 1 < 10)
          omega
        have hd2 : n / 10 < f2 := by
          have := Nat.div_lt_self (by omega : 0 < n) (by norm_num : 1 < 10)
          omega
        rw [ih hd hd2]

/-- Characteristic equation of `natToChars`. -/
theorem natToChars_eq (n : Nat) :
    natToChars n =
      if n < 10 then [Char.ofNat (48 + n)]
      else natToChars (n / 10) ++ [Char.ofNat (48 + n % 10)] := by
  by_cases hn : n < 10
  · simp [natToChars, natToCharsFuel, hn]
  · have hd : n / 10 < n :=
      Nat.div_lt_self (by omega : 0 < n) (by norm_num : 1 < 10)
    have hstep : natToCharsFuel (n + 1) n =
        if n < 10 then [Char.ofNat (48 + n)]
        else natToCharsFuel n (n / 10) ++ [Char.ofNat (48 + n % 10)] := rfl
    rw [natToChars, hstep, if_neg hn, if_neg hn, natToChars,
      natToCharsFuel_congr hd (Nat.lt_succ_self _)]

/-- Go `strconv.FormatInt(t, 10)`. -/
def goFormatInt (t : Int) : GoStr :=
  if t < 0 then '-' :: natToChars (-t).toNat else natToChars t.toNat

/-- State machine of Go `strconv`'s `underscoreOK`: underscores in a
numeric literal must separate digits (or follow a base prefix).
States: 0 = start, 1 = digit/base prefix, 2 = underscore, 3 = other. -/
def underscoreStep (hex : Bool) (saw : Nat) (c : Char) : Option Nat :=
  if c.isDigit || (hex && 'a' ≤ goLowerChar c && goLowerChar c ≤ 'f') then some 1
  else if c = '_' then (if saw = 1 then some 2 else none)
  else if saw = 2 then none
  else some 3

/-- Go `strconv`'s `underscoreOK s` (port of the Go function). -/
def underscoreOKGo (s : GoStr) : Bool :=
  let s1 := match s with
    | '+' :: t => t
    | '-' :: t => t
    | t => t
  let hexAndRest : Bool × Nat × GoStr := match s1 with
    | '0' :: b :: t =>
      if goLowerChar b = 'b' || goLowerChar b = 'o' || goLowerChar b = 'x' then
        (goLowerChar b = 'x', 1, t)
      else (false, 0, s1)
    | _ => (false, 0, s1)
  let hex := hexAndRest.1
  let res := hexAndRest.2.2.foldl
    (fun acc c => match acc with
      | none => none
      | some saw => underscoreStep hex saw c)
    (some hexAndRest.2.1)
  match res with
  | none => false
  | some saw => saw ≠ 2

/-- Scan a run of digits (per `isD`) in which underscores are also
consumed; returns the rest of the string and the number of digits seen. -/
def takeDigitsU (isD : Char → Bool) : GoStr → GoStr × Nat
  | [] => ([], 0)
  | c :: t =>
    if isD c then
      let r := takeDigitsU isD t
      (r.1, r.2 + 1)
    else if c = '_' then takeDigitsU isD t
    else (c :: t, 0)

/-- Hexadecimal digit test. -/
def isHexDigitGo (c : Char) : Bool :=
  c.isDigit || ('a' ≤ goLowerChar c && goLowerChar c ≤ 'f')

/-- Exponent part of a float literal: optional sign then at least one
decimal digit (underscores permitted, validated separately). -/
def floatExpOk (s : GoStr) : Bool :=
  let t := match s with
    | '+' :: u => u
    | '-' :: u => u
    | u => u
  let r := takeDigitsU Char.isDigit t
  r.2 ≥ 1 && r.1 = []

/-- Mantissa-and-exponent syntax of Go `strconv`'s `readFloat`, after the
optional sign has been removed: digits with at most one dot (at least one
digit overall), then an optional `e`/`E` exponent for decimal literals or
a mandatory `p`/`P` exponent for hexadecimal ones. -/
def floatMantissaOk (hex : Bool) (s : GoStr) : Bool :=
  let isD := if hex then isHexDigitGo else Char.isDigit
  let r1 := takeDigitsU isD s
  let afterDot : GoStr × Nat :=
    match r1.1 with
    | '.' :: t2 =>
      let r2 := takeDigitsU isD t2
      (r2.1, r2.2)
    | _ => (r1.1, 0)
  if r1.2 + afterDot.2 = 0 then false
  else
    match afterDot.1 with
    | [] => !hex
    | 'e' :: t3 => !hex && floatExpOk t3
    | 'E' :: t3 => !hex && floatExpOk t3
    | 'p' :: t3 => hex && floatExpOk t3
    | 'P' :: t3 => hex && floatExpOk t3
    | _ => false

/-- Go `strconv.ParseFloat(s, 64)` acceptance. Special values (`inf`,
`infinity` with optional sign, `nan` unsigned, case-insensitively), or a
signed decimal/hexadecimal mantissa with optional/mandatory exponent;
literals containing underscores must additionally pass `underscoreOK`.
Range overflow (finite literals beyond float64 range, which Go reports as
`ErrRange`) is not modelled; no input considered here approaches it. -/
def goParseFloatOk (s : GoStr) : Bool :=
  let low := goToLower s
  if low = gostr "inf" || low = gostr "+inf" || low = gostr "-inf" ||
     low = gostr "infinity" || low = gostr "+infinity" || low = gostr "-infinity" ||
     low = gostr "nan" then true
  else
    let s1 := match s with
      | '+' :: t => t
      | '-' :: t => t
      | t => t
    let hexAndRest : Bool × GoStr := match s1 with
      | '0' :: 'x' :: t => (true, t)
      | '0' :: 'X' :: t => (true, t)
      | _ => (false, s1)
    floatMantissaOk hexAndRest.1 hexAndRest.2 &&
      (!(s.contains '_') || underscoreOKGo s)

/-! ## Line-protocol codec (package `protocol`) -/

/-- Classified parse failures of `protocol.Parse`, one constructor per
`fmt.Errorf` site, carrying the offending literal where Go includes it. -/
inductive PErr where
  | invalidFormat
  | unterminatedQuotedMeasurement
  | invalidCharAfterQuotedMeasurement
  | emptyMeasurement
  | invalidTagFormat (pair : GoStr)
  | emptyTagKey
  | emptyTagValue
  | missingFields
  | invalidFieldFormat (fld : GoStr)
  | emptyFieldKey
  | invalidStringField (v : GoStr)
  | invalidIntegerField (v : GoStr)
  | invalidTimestamp (v : GoStr)
  | invalidNumericField (v : GoStr)
  deriving DecidableEq

/-- Outcome of running a piece of Go code: a value, a returned error, or
a runtime panic (which the spec claims never happens). -/
inductive GoResult (ε α : Type) where
  | ok (a : α)
  | error (e : ε)
  | panicked
  deriving DecidableEq

def GoResult.bind : GoResult ε α → (α → GoResult ε β) → GoResult ε β
  | .ok a, f => f a
  | .error e, _ => .error e
  | .panicked, _ => .panicked

instance : Monad (GoResult ε) where
  pure := .ok
  bind := GoResult.bind

@[simp] theorem GoResult.bind_ok (a : α) (f : α → GoResult ε β) :
    GoResult.bind (.ok a) f = f a := rfl

@[simp] theorem GoResult.bind_error (e : ε) (f : α → GoResult ε β) :
    GoResult.bind (.error e) f = .error e := rfl

@[simp] theorem GoResult.bind_panicked (f : α → GoResult ε β) :
    GoResult.bind .panicked f = .panicked := rfl

/-- The record produced by `protocol.Parse`.  Go keeps a map plus a
separate insertion-order array for tags and for fields; both are modelled
as one association list in insertion order (duplicate keys permitted, as
in Go's order arrays), with map lookup being last-entry-wins
(`goMapGet`), which matches last-write-wins insertion into a Go map. -/
structure LineProtocol where
  measurement : GoStr
  tags : List (GoStr × GoStr)
  fields : List (GoStr × GoStr)
  timestamp : Int
  deriving DecidableEq

/-- Lookup in an insertion-ordered association list with Go-map
semantics: the value of the *last* entry with the given key (repeated
insertion into a Go map is last-write-wins). -/
def goMapGet {β : Type} (l : List (GoStr × β)) (k : GoStr) : Option β :=
  match l with
  | [] => none
  | kv :: t =>
    match goMapGet t k with
    | some v => some v
    | none => if kv.1 = k then some kv.2 else none

/-- The closing-quote scan of `Parse` (lines 66-80): starting after the
opening quote, a backslash escapes the next character; returns the index
of the first unescaped `"`, or `none` when the scan runs off the end
(`i >= len`, Go's unterminated case).  `i` is the index in the full
token of the character at the head of the list. -/
def quoteScan : GoStr → Nat → Bool → Option Nat
  | [], _, _ => none
  | c :: rest, i, esc =>
    if esc then quoteScan rest (i + 1) false
    else if c = '\\' then quoteScan rest (i + 1) true
    else if c = '"' then some i
    else quoteScan rest (i + 1) false

/-- Lines 63-98 of `Parse`: split the first space-free chunk into
measurement and tag string.  A token starting with `"` is scanned for its
closing quote; the measurement is the raw text between the quotes
(escape sequences are *not* decoded), and the character after the
closing quote, when present, must be a comma. -/
def parseMeasurementTags (mt : GoStr) : GoResult PErr (GoStr × GoStr) :=
  if goHasPfx mt ['"'] then
    match quoteScan (mt.drop 1) 1 false with
    | none => .error .unterminatedQuotedMeasurement
    | some i =>
      let m := (mt.drop 1).take (i - 1)
      if i + 1 < mt.length then
        if mt[i + 1]? ≠ some ',' then .error .invalidCharAfterQuotedMeasurement
        else .ok (m, mt.drop (i + 2))
      else .ok (m, [])
  else
    match goSplitN2 mt [','] with
    | [m] => .ok (m, [])
    | [m, t] => .ok (m, t)
    | _ => .panicked

/-- Lines 118-121 of `Parse`: a tag value wrapped in double quotes loses
them via the slice `value[1 : len(value)-1]`, which panics at runtime
when the value is the single character `"` (slice bounds `[1:0]`).  The
stripping is not escape-aware. -/
def stripTagQuotes (v : GoStr) : GoResult PErr GoStr :=
  if goHasPfx v ['"'] && goHasSfx v ['"'] then
    if v.length = 1 then .panicked
    else .ok ((v.drop 1).take (v.length - 2))
  else .ok v

/-- Lines 109-132 of `Parse`: each comma-separated tag is split at its
first `=`; both sides are trimmed; a quoted value is stripped; empty key
or value is fatal. -/
def parseTagPairs : List GoStr → GoResult PErr (List (GoStr × GoStr))
  | [] => .ok []
  | pair :: rest =>
    match goSplitN2 pair ['='] with
    | [k0, v0] =>
      let key := goTrimSpace k0
      let value := goTrimSpace v0
      GoResult.bind (stripTagQuotes value) fun v =>
        if key = [] then .error .emptyTagKey
        else if v = [] then .error .emptyTagValue
        else GoResult.bind (parseTagPairs rest) fun l => .ok ((key, v) :: l)
    | _ => .error (.invalidTagFormat pair)

/-- Lines 159-182 of `Parse` (the spec's ValueTyper): classify a trimmed
field value, first match wins: quoted string (length at least 2), `i`
suffix validated by `ParseInt`, case-insensitive boolean stored
lowercased, otherwise must pass `ParseFloat`.  Returns the stored
literal. -/
def parseFieldValue (value : GoStr) : GoResult PErr GoStr :=
  if goHasPfx value ['"'] && goHasSfx value ['"'] then
    if value.length < 2 then .error (.invalidStringField value)
    else .ok value
  else if goHasSfx value ['i'] then
    if (goParseInt64 value.dropLast).isSome then .ok value
    else .error (.invalidIntegerField value)
  else if goToLower value = gostr "true" || goToLower value = gostr "false" then
    .ok (goToLower value)
  else if goParseFloatOk value then .ok value
  else .error (.invalidNumericField value)

/-- Lines 147-184 of `Parse`: each comma-separated field is split at its
first `=`; empty key is fatal; the value is classified by
`parseFieldValue`. -/
def parseFieldPairs : List GoStr → GoResult PErr (List (GoStr × GoStr))
  | [] => .ok []
  | fld :: rest =>
    match goSplitN2 fld ['='] with
    | [k0, v0] =>
      let key := goTrimSpace k0
      let value := goTrimSpace v0
      if key = [] then .error .emptyFieldKey
      else
        GoResult.bind (parseFieldValue value) fun v =>
          GoResult.bind (parseFieldPairs rest) fun l => .ok ((key, v) :: l)
    | _ => .error (.invalidFieldFormat fld)

/-- `protocol.Parse` (lines 46-196): trim the line, split it at the first
space into measurement-plus-tags and fields-plus-timestamp (anything but
exactly two chunks is `invalidFormat`), parse each part, and parse the
optional timestamp with `ParseInt`. -/
def parse (input : GoStr) : GoResult PErr LineProtocol :=
  let line := goTrimSpace input
  match goSplitN2 line [' '] with
  | [mt, rest] =>
    (match parseMeasurementTags mt with
     | .ok (measurement, tagsStr) =>
       if measurement = [] then .error .emptyMeasurement
       else
         (match (if tagsStr = [] then .ok []
                 else parseTagPairs (goSplitOn tagsStr [','])) with
          | .ok tags =>
            let fieldsAndTime := goSplitN2 rest [' ']
            if fieldsAndTime = [] then .error .missingFields
            else
              (match parseFieldPairs (goSplitOn (fieldsAndTime.headD []) [',']) with
               | .ok fields =>
                 (match fieldsAndTime with
                  | [_, tsStr] =>
                    (match goParseInt64 tsStr with
                     | some ts => .ok ⟨measurement, tags, fields, ts⟩
                     | none => .error (.invalidTimestamp tsStr))
                  | _ => .ok ⟨measurement, tags, fields, 0⟩)
               | .error e => .error e
               | .panicked => .panicked)
          | .error e => .error e
          | .panicked => .panicked)
     | .error e => .error e
     | .panicked => .panicked)
  | _ => .error .invalidFormat

/-- Lines 222-228 and 242-248 of `LineProtocol.String`: a tag value
containing a space is re-quoted with internal quotes escaped. -/
def encodeTagValue (v : GoStr) : GoStr :=
  if goContains v [' '] then ['"'] ++ goReplaceAll v ['"'] ['\\', '"'] ++ ['"']
  else v

/-- `LineProtocol.String` (lines 199-286): measurement (re-quoted when it
contains a space or comma, internal quotes escaped), tags in preserved
order (each `,key=value`, the value re-quoted when it contains a space),
fields in preserved order (space-prefixed, comma-joined, literal text
verbatim), and the timestamp only when strictly positive.  Go's fallback
branches for a non-nil map with an empty order array are unreachable for
records produced by `parse`, whose single-list representation cannot
distinguish that degraded state. -/
def encode (lp : LineProtocol) : GoStr :=
  let mtok :=
    if goContains lp.measurement [' '] || goContains lp.measurement [','] then
      ['"'] ++ goReplaceAll lp.measurement ['"'] ['\\', '"'] ++ ['"']
    else lp.measurement
  let tagsPart := (lp.tags.map Prod.fst).flatMap fun k =>
    [','] ++ k ++ ['='] ++ encodeTagValue ((goMapGet lp.tags k).getD [])
  let fieldsPart := List.intercalate [',']
    ((lp.fields.map Prod.fst).map fun k => k ++ ['='] ++ (goMapGet lp.fields k).getD [])
  let tsPart := if 0 < lp.timestamp then [' '] ++ goFormatInt lp.timestamp else []
  mtok ++ tagsPart ++ [' '] ++ fieldsPart ++ tsPart

/-! ## v1 query handler (`handleV1Query` in package `server`)

The HTTP plumbing (parameter extraction, the `db` parameter check, JSON
envelopes) is external to the query interpretation modelled here, which
covers the command dispatch, the SELECT parsing (lines 395-647), and the
point processing (lines 679-811). -/

/-- Errors returned (as HTTP 400 responses) by `handleV1Query`. -/
inductive QErr where
  | invalidCreateDb
  | invalidUse
  | invalidStartTime (s : GoStr)
  | invalidEndTime (s : GoStr)
  | invalidQueryFormat
  deriving DecidableEq

/-- The information `handleV1Query` extracts from a SELECT query before
touching the store: measurement, field, aggregation, and the time range. -/
structure SelectDesc where
  measurement : GoStr
  field : GoStr
  aggregation : GoStr
  startNs : Int
  endNs : Int
  deriving DecidableEq

/-- Like `SelectDesc` but with the raw optional bounds, before the
defaults (start 0, end `time.Now().UnixNano()`) are applied. -/
structure SelectCore where
  measurement : GoStr
  field : GoStr
  aggregation : GoStr
  startB : Option Int
  endB : Option Int
  deriving DecidableEq

/-- Result of the command dispatch of `handleV1Query`. -/
inductive QueryResult where
  | showDatabases
  | showMeasurements
  | createDatabase (name : GoStr)
  | useDb (name : GoStr)
  | select (d : SelectDesc)
  | qerror (e : QErr)
  | panicked
  deriving DecidableEq

/-- Lines 533-541: first aggregation function whose name followed by `(`
prefixes the select part. -/
def findAgg (selectPart : GoStr) : Option GoStr :=
  [gostr "mean", gostr "sum", gostr "count", gostr "min", gostr "max"].find?
    (fun agg => goHasPfx selectPart (agg ++ ['(']))

/-- Lines 634 and 639: strip one layer of quotes, then one layer of
backslash-or-quote characters (`strings.Trim(strings.Trim(x, "\""), "\\\"")`). -/
def stripQueryQuotes (x : GoStr) : GoStr :=
  goTrimCut (goTrimCut x ['"']) ['\\', '"']

/-- Lines 569-589 and 604-624 (the same logic appears twice in the Go
code, once per bound): parse a time literal; an explicit `ms` suffix is
trimmed and the parsed integer multiplied by 1,000,000 (milliseconds to
nanoseconds), no suffix means the literal is already nanoseconds; an
unparsable literal is a fatal error built by `mk`. -/
def parseTimeLiteral (s : GoStr) (mk : GoStr → QErr) : GoResult QErr Int :=
  if goHasSfx s (gostr "ms") then
    match goParseInt64 (goTrimSfx s (gostr "ms")) with
    | some v => .ok (v * 1000000)
    | none => .error (mk (goTrimSfx s (gostr "ms")))
  else
    match goParseInt64 s with
    | some v => .ok v
    | none => .error (mk s)

/-- Lines 563-591: the `>=` time bound.  The literal is only consumed
when an `and` occurs after it; with no following `and` the bound is
silently ignored. -/
def parseStartBound (timePart : GoStr) : GoResult QErr (Option Int) :=
  match goIndexOf timePart (gostr ">=") with
  | none => .ok none
  | some startIdx =>
    let s0 := goTrimSpace (timePart.drop (startIdx + 2))
    match goIndexOf s0 (gostr "and") with
    | none => .ok none
    | some endIdx =>
      GoResult.bind (parseTimeLiteral (goTrimSpace (s0.take endIdx)) .invalidStartTime)
        fun v => .ok (some v)

/-- Lines 594-625: the `<=` time bound; the literal runs to the next
space (or end of string), with the same `ms` handling. -/
def parseEndBound (timePart : GoStr) : GoResult QErr (Option Int) :=
  match goIndexOf timePart (gostr "<=") with
  | none => .ok none
  | some endIdx =>
    let e0 := goTrimSpace (timePart.drop (endIdx + 2))
    let e1 := match goIndexOf e0 [' '] with
      | some spaceIdx => e0.take spaceIdx
      | none => e0
    GoResult.bind (parseTimeLiteral e1 .invalidEndTime) fun v => .ok (some v)

/-- Lines 554-626: the WHERE clause.  Bounds are parsed from the text
after the first occurrence of `time`; a `>=` parse error is returned
before `<=` is attempted. -/
def parseWhereBounds (whereClause : GoStr) : GoResult QErr (Option Int × Option Int) :=
  match goIndexOf whereClause (gostr "time") with
  | none => .ok (none, none)
  | some ti =>
    let timePart := goTrimSpace (whereClause.drop (ti + 4))
    GoResult.bind (parseStartBound timePart) fun sb =>
      GoResult.bind (parseEndBound timePart) fun eb => .ok (sb, eb)

/-- Lines 528-530: the select part — everything before the first `from`,
with the `select` keyword trimmed off. -/
def selectPartOf (ql : GoStr) : GoStr :=
  goTrimSpace (goTrimPfx ((goSplitOn ql (gostr "from")).headD []) (gostr "select"))

/-- Lines 526-546: aggregation and (pre-stripping) field selector.  For
`agg(x)` the field is taken from split-on-`(` index 1, which exists
because the `agg(` prefix guarantees a parenthesis; a non-SELECT query
keeps the initial `*`. -/
def fieldSelOf (ql : GoStr) : GoStr × GoStr :=
  if goHasPfx ql (gostr "select") then
    match findAgg (selectPartOf ql) with
    | some agg =>
      (agg, goTrimCut ((goSplitOn (selectPartOf ql) ['(']).getD 1 []) [')'])
    | none => ([], selectPartOf ql)
  else ([], gostr "*")

/-- Lines 548-628: the FROM part (between the first and second `from`),
WHERE-clause truncation and time bounds.  When the query is not a SELECT,
or has no text after `from`, everything stays at its defaults. -/
def fromStep (ql : GoStr) : GoResult QErr (GoStr × Option Int × Option Int) :=
  if goHasPfx ql (gostr "select") && (goSplitOn ql (gostr "from")).length > 1 then
    let fromPart := goTrimSpace ((goSplitOn ql (gostr "from")).getD 1 [])
    match goIndexOf fromPart (gostr "where") with
    | some wi =>
      GoResult.bind (parseWhereBounds (goTrimSpace (fromPart.drop (wi + 5))))
        fun bounds => .ok (goTrimSpace (fromPart.take wi), bounds.1, bounds.2)
    | none => .ok (fromPart, none, none)
  else .ok ([], none, none)

/-- Lines 519-645 on the lower-cased query: the SELECT parsing.  The
measurement is the FROM part truncated before `group by`, trimmed and
quote-stripped; a query that yields no measurement (including any
non-SELECT query reaching this point) is an `invalid query format`
error.  Measurement and field come from the *lower-cased* query text. -/
def interpretSelectCore (ql : GoStr) : GoResult QErr SelectCore :=
  GoResult.bind (fromStep ql) fun st =>
    let measurement :=
      stripQueryQuotes (goTrimSpace ((goSplitOn st.1 (gostr "group by")).headD []))
    if measurement = [] then .error .invalidQueryFormat
    else .ok ⟨measurement, stripQueryQuotes (fieldSelOf ql).2,
      (fieldSelOf ql).1, st.2.1, st.2.2⟩

/-- The command dispatch and SELECT parsing of `handleV1Query` (lines
395-647).  `now` is `time.Now().UnixNano()` at the time of the call, the
handler's only call-time dependence: the end bound defaults to it (line
523) when no `<=` bound is parsed.  Keyword dispatch works on the
lower-cased query; CREATE DATABASE and USE read their argument from the
original-case query via `strings.Fields`. -/
def interpretQuery (q : GoStr) (now : Int) : QueryResult :=
  let ql := goToLower q
  if ql = gostr "show databases" then .showDatabases
  else if ql = gostr "show measurements" then .showMeasurements
  else if goHasPfx ql (gostr "create database") then
    let parts := goFields q
    if parts.length < 3 then .qerror .invalidCreateDb
    else .createDatabase (parts.getD 2 [])
  else if goHasPfx ql (gostr "use") then
    let parts := goFields q
    if parts.length < 2 then .qerror .invalidUse
    else .useDb (parts.getD 1 [])
  else
    match interpretSelectCore ql with
    | .ok c => .select ⟨c.measurement, c.field, c.aggregation,
        c.startB.getD 0, c.endB.getD now⟩
    | .error e => .qerror e
    | .panicked => .panicked

/-- Lines 681-692 (inside the mean branch): the GROUP BY interval,
default 5 minutes; `group by time(Nm)` sets N minutes (only the minute
unit `m)` is recognised; an unparsable N keeps the default).  A query
containing `group by time` but not `group by time(` makes the Go code
evaluate `strings.Split(queryLower, "group by time(")[1]` on a
one-element slice, which panics with an index out of range. -/
def groupByWidth (ql : GoStr) : GoResult Empty Int :=
  if goContains ql (gostr "group by time") then
    match goSplitOn ql (gostr "group by time(") with
    | _ :: gp :: _ =>
      if goContains gp (gostr "m)") then
        match goParseInt64 ((goSplitOn gp (gostr "m)")).headD []) with
        | some mins => .ok (mins * 60 * 1000000000)
        | none => .ok (5 * 60 * 1000000000)
      else .ok (5 * 60 * 1000000000)
    | _ => .panicked
  else .ok (5 * 60 * 1000000000)

/-- A stored point as handed back by the persistence layer: nanosecond
timestamp and per-field float64 values.  Go's `Fields` map is modelled as
an association list; its unspecified map-iteration order becomes list
order. -/
structure Point where
  ts : Int
  fields : List (GoStr × Float)

/-- Append a value to its bucket, keeping first-insertion bucket order
(Go appends to `groupedPoints[bucketTime]`). -/
def addToBucket : List (Int × List Float) → Int → Float → List (Int × List Float)
  | [], b, v => [(b, [v])]
  | (b', vs) :: t, b, v =>
    if b' = b then (b', vs ++ [v]) :: t else (b', vs) :: addToBucket t b v

/-- One iteration of the grouping loop (lines 697-705): a point carrying
the field appends its value to bucket `ts - ts % interval` (Go's `%` is
truncated remainder, `Int.tmod`); a point lacking the field is skipped. -/
def groupStep (field : GoStr) (w : Int) (acc : List (Int × List Float))
    (p : Point) : List (Int × List Float) :=
  match goMapGet p.fields field with
  | some v => addToBucket acc (p.ts - Int.tmod p.ts w) v
  | none => acc

/-- Lines 694-705: group the selected field's values by time bucket. -/
def groupPoints (field : GoStr) (w : Int) (pts : List Point) :
    List (Int × List Float) :=
  pts.foldl (groupStep field w) []

/-- Insert into a sorted list (ascending). -/
def insertSorted (x : Int) : List Int → List Int
  | [] => [x]
  | y :: t => if x < y then x :: y :: t else y :: insertSorted x t

/-- Ascending sort (the model of `sort.Slice(timestamps, less-than)`,
lines 724-728; bucket keys are distinct, so any correct sort yields the
same list). -/
def sortInts (l : List Int) : List Int := l.foldr insertSorted []

/-- Sum of a list of floats (lines 733-736). -/
def sumFloats (l : List Float) : Float := l.foldl (· + ·) 0.0

/-- Values collected for one bucket. -/
def bucketValues (grouped : List (Int × List Float)) (ts : Int) : List Float :=
  ((grouped.find? fun kv => decide (kv.1 = ts)).map Prod.snd).getD []

/-- Lines 694-751: the mean aggregation.  Buckets are emitted in
ascending order of bucket timestamp, one row per distinct bucket, as
`(bucket / 1,000,000 , sum / count)` — the time column is converted from
nanoseconds to milliseconds (line 745, "for Grafana"). -/
def meanRows (field : GoStr) (w : Int) (pts : List Point) :
    List (Int × Float) :=
  let grouped := groupPoints field w pts
  let timestamps := sortInts (grouped.map Prod.fst)
  timestamps.map fun ts =>
    let values := bucketValues grouped ts
    (Int.tdiv ts 1000000, sumFloats values / Float.ofNat values.length)

/-- Lines 765-801: the non-aggregated path — one row per point carrying
the selected field (or one row per field of each point when the selector
is `*`), in point order, with the time column again in milliseconds. -/
def rawRows (field : GoStr) (pts : List Point) : List (Int × Float) :=
  pts.flatMap fun p =>
    if field = gostr "*" then
      p.fields.map fun kv => (Int.tdiv p.ts 1000000, kv.2)
    else
      match goMapGet p.fields field with
      | some v => [(Int.tdiv p.ts 1000000, v)]
      | none => []

/-- Lines 679-811: points are bucketed and averaged only when the
aggregation is exactly `mean`; every other aggregation value (including
`sum`, `count`, `min`, `max` and the empty string) takes the raw-points
path.  In the mean branch, a zero GROUP BY interval makes Go evaluate
`ts % 0`, a runtime panic, as soon as one point carries the field. -/
def processPoints (aggregation field : GoStr) (ql : GoStr) (pts : List Point) :
    GoResult Empty (List (Int × Float)) :=
  if aggregation = gostr "mean" then
    GoResult.bind (groupByWidth ql) fun w =>
      if w = 0 && pts.any (fun p => (goMapGet p.fields field).isSome) then .panicked
      else .ok (meanRows field w pts)
  else .ok (rawRows field pts)

/-! ## Helper definitions for the claim theorems -/

/-- The field-value classification as the spec words it (the comparison
target for the classification-order claim): first match wins in the fixed
order quoted-string, `i`-suffixed integer, boolean, float. -/
def classifySpecOrder (value : GoStr) : GoResult PErr GoStr :=
  if goHasPfx value ['"'] && goHasSfx value ['"'] then
    if 2 ≤ value.length then .ok value else .error (.invalidStringField value)
  else if goHasSfx value ['i'] then
    if (goParseInt64 value.dropLast).isSome then .ok value
    else .error (.invalidIntegerField value)
  else if goToLower value = gostr "true" || goToLower value = gostr "false" then
    .ok (goToLower value)
  else if goParseFloatOk value then .ok value
  else .error (.invalidNumericField value)

/-- The command kind of a query result, forgetting identifier payloads. -/
def resultKind : QueryResult → Nat
  | .showDatabases => 0
  | .showMeasurements => 1
  | .createDatabase _ => 2
  | .useDb _ => 3
  | .select _ => 4
  | .qerror _ => 5
  | .panicked => 6

/-- Forget the end bound of a select descriptor (the one component that
tracks the call time). -/
def scrubEnd : QueryResult → QueryResult
  | .select d => .select ⟨d.measurement, d.field, d.aggregation, d.startNs, 0⟩
  | r => r

/-- The spec's aggregation example: points at 0, 30e9 and 70e9 ns, each
carrying the selected field. -/
def examplePoints : List Point :=
  [⟨0, [(gostr "value", 1.0)]⟩, ⟨30000000000, [(gostr "value", 2.0)]⟩,
   ⟨70000000000, [(gostr "value", 4.0)]⟩]

/-! ## Claim theorems -/

/-- C3: the code contradicts its own test suite.  The line is split at
its first space *before* any quote handling, so a quoted tag value (or
measurement) containing a space never parses:
`Decode("cpu,host=\"server 1\" value=42")` — the exact input the repo's
tests expect to yield tags {host: "server 1"} — returns the error
`invalid field format: 1"`, and a quoted measurement with a space is an
unterminated-quote error. -/
theorem quotedTokensWithSpacesFailBug :
    parse (gostr "cpu,host=\"server 1\" value=42") =
      .error (.invalidFieldFormat (gostr "1\"")) ∧
    parse (gostr "\"my measurement\" value=42") =
      .error .unterminatedQuotedMeasurement := by
  exact ⟨by decide, by decide⟩

/-- C7: the core can panic on malformed input.  `Decode` of a line whose
tag value is a lone double quote evaluates the Go slice `value[1:0]`
(slice bounds out of range), and the mean-aggregation path of any query
containing `group by time` without a following parenthesis evaluates
`strings.Split(queryLower, "group by time(")[1]` on a one-element slice
(index out of range). -/
theorem malformedInputPanicsBug :
    parse (gostr "cpu,host=\" v=1") = .panicked ∧
    processPoints (gostr "mean") (gostr "value")
      (goToLower (gostr "SELECT mean(\"value\") FROM \"cpu\" GROUP BY time 1m")) []
      = .panicked ∧
    groupByWidth (gostr "select mean(value) from cpu group by time 1m") = .panicked := by
  exact ⟨by decide, rfl, rfl⟩

/-- C10: for the aggregations sum, count, min and max the handler takes
the raw-points path: it emits exactly the rows the same request with no
aggregation would produce (one row per point carrying the selected
field, or one row per field of the point when the selector is `*`). -/
theorem nonMeanAggregationsTakeRawPath (agg : GoStr)
    (h : agg ∈ [gostr "sum", gostr "count", gostr "min", gostr "max"]) :
    ∀ (field ql : GoStr) (pts : List Point),
      processPoints agg field ql pts = processPoints [] field ql pts ∧
      processPoints agg field ql pts = .ok (rawRows field pts) := by
  intro field ql pts
  have hne : ¬ agg = gostr "mean" := by
    simp only [List.mem_cons, List.not_mem_nil, or_false] at h
    rcases h with h | h | h | h <;> subst h <;> decide
  have hne2 : ¬ ([] : GoStr) = gostr "mean" := by decide
  constructor
  · simp only [processPoints, if_neg hne, if_neg hne2]
  · simp only [processPoints, if_neg hne]

/-- Witness for C10 at `sum` on the example points. -/
theorem nonMeanAggregationsTakeRawPathWitness :
    gostr "sum" ∈ [gostr "sum", gostr "count", gostr "min", gostr "max"] ∧
    (processPoints (gostr "sum") (gostr "value") [] examplePoints
        = processPoints [] (gostr "value") [] examplePoints ∧
      processPoints (gostr "sum") (gostr "value") [] examplePoints
        = .ok (rawRows (gostr "value") examplePoints)) :=
  ⟨by decide,
   nonMeanAggregationsTakeRawPath (gostr "sum") (by decide)
     (gostr "value") [] examplePoints⟩

/-- C2 counterexample: the emitted row times are not the bucket
timestamps.  On the spec's own example (points at 0, 30e9, 70e9 ns,
bucket width 60e9 ns) the code emits rows at times 0 and 60000 — the
bucket timestamp divided by 1,000,000 (milliseconds) — not 0 and
60e9. -/
theorem meanRowUnitsCounterexample :
    (meanRows (gostr "value") 60000000000 examplePoints).map Prod.fst = [0, 60000] ∧
    ([0, 60000] : List Int) ≠ [0, 60000000000] := by
  exact ⟨by decide, by decide⟩

/-- C5 counterexample: a `>=` bound with no following `and` is silently
ignored; the claim's rule (parse the literal up to the next `and`/space)
would give startNs = 1,000,000,000 here, but the code leaves it at 0. -/
theorem startBoundCounterexample :
    interpretQuery (gostr "select mean(\"value\") from \"cpu\" where time >= 1000ms") 99
      = .select ⟨gostr "cpu", gostr "value", gostr "mean", 0, 99⟩ ∧
    (0 : Int) ≠ 1000000000 := by
  exact ⟨by decide, by decide⟩

/-- C6 counterexample: SELECT identifiers do not retain their original
case — measurement and field are extracted from the lower-cased query
text, so `SELECT "Value" FROM "CPU"` yields measurement `cpu` and field
`value`. -/
theorem caseHandlingCounterexample :
    interpretQuery (gostr "SELECT \"Value\" FROM \"CPU\"") 7
      = .select ⟨gostr "cpu", gostr "value", [], 0, 7⟩ ∧
    gostr "cpu" ≠ gostr "CPU" ∧ gostr "value" ≠ gostr "Value" := by
  exact ⟨by decide, by decide, by decide⟩

/-- C8 counterexample: a line that has the mandatory separating space but
zero fields in its fields segment fails with the invalid-field-format
error (on the empty field candidate), not with missing-fields. -/
theorem missingFieldsCounterexample :
    parse (gostr "cpu  value=42") = .error (.invalidFieldFormat []) ∧
    PErr.invalidFieldFormat [] ≠ PErr.missingFields := by
  exact ⟨by decide, by decide⟩

/-- C9 counterexample: for a query with no `<=` bound the end of the time
range is `time.Now()`, so two calls at different instants (modelled by
the `now` parameter) return unequal descriptors. -/
theorem determinismCounterexample :
    interpretQuery (gostr "select \"value\" from \"cpu\"") 1
      ≠ interpretQuery (gostr "select \"value\" from \"cpu\"") 2 ∧
    interpretQuery (gostr "select \"value\" from \"cpu\"") 1
      = .select ⟨gostr "cpu", gostr "value", [], 0, 1⟩ ∧
    interpretQuery (gostr "select \"value\" from \"cpu\"") 2
      = .select ⟨gostr "cpu", gostr "value", [], 0, 2⟩ := by
  exact ⟨by decide, by decide, by decide⟩

/-- C9 amended: `Decode` and `Interpret` are pure — two calls on the same
input and the same current time agree — and two `Interpret` calls at
different instants agree in everything except possibly the end bound,
which tracks the call time (`time.Now()`) when the query has no parsed
`<=` bound. -/
theorem determinismAmended :
    (∀ line : GoStr, parse line = parse line) ∧
    (∀ (q : GoStr) (now : Int), interpretQuery q now = interpretQuery q now) ∧
    (∀ (q : GoStr) (n1 n2 : Int),
      scrubEnd (interpretQuery q n1) = scrubEnd (interpretQuery q n2)) ∧
    (∀ (q : GoStr) (n1 n2 : Int) (d1 d2 : SelectDesc),
      interpretQuery q n1 = .select d1 → interpretQuery q n2 = .select d2 →
      d1.measurement = d2.measurement ∧ d1.field = d2.field ∧
      d1.aggregation = d2.aggregation ∧ d1.startNs = d2.startNs) := by
  have hscrub : ∀ (q : GoStr) (n1 n2 : Int),
      scrubEnd (interpretQuery q n1) = scrubEnd (interpretQuery q n2) := by
    intro q n1 n2
    unfold interpretQuery
    dsimp only
    split_ifs <;> try rfl
    cases interpretSelectCore (goToLower q) <;> simp [scrubEnd]
  refine ⟨fun _ => rfl, fun _ _ => rfl, hscrub, ?_⟩
  intro q n1 n2 d1 d2 h1 h2
  have h := hscrub q n1 n2
  rw [h1, h2] at h
  simp only [scrubEnd, QueryResult.select.injEq, SelectDesc.mk.injEq] at h
  exact ⟨h.1, h.2.1, h.2.2.1, h.2.2.2.1⟩

/-- Witness for C9 amended at a concrete query. -/
theorem determinismAmendedWitness :
    interpretQuery (gostr "select \"value\" from \"cpu\" where time >= 1ms and time <= 5ms") 1
      = .select ⟨gostr "cpu", gostr "value", [], 1000000, 5000000⟩ ∧
    ((⟨gostr "cpu", gostr "value", [], 1000000, 5000000⟩ : SelectDesc).measurement
        = (⟨gostr "cpu", gostr "value", [], 1000000, 5000000⟩ : SelectDesc).measurement ∧
      (⟨gostr "cpu", gostr "value", [], 1000000, 5000000⟩ : SelectDesc).field
        = (⟨gostr "cpu", gostr "value", [], 1000000, 5000000⟩ : SelectDesc).field ∧
      (⟨gostr "cpu", gostr "value", [], 1000000, 5000000⟩ : SelectDesc).aggregation
        = (⟨gostr "cpu", gostr "value", [], 1000000, 5000000⟩ : SelectDesc).aggregation ∧
      (⟨gostr "cpu", gostr "value", [], 1000000, 5000000⟩ : SelectDesc).startNs
        = (⟨gostr "cpu", gostr "value", [], 1000000, 5000000⟩ : SelectDesc).startNs) :=
  ⟨by decide,
   determinismAmended.2.2.2
     (gostr "select \"value\" from \"cpu\" where time >= 1ms and time <= 5ms") 1 2
     _ _ (by decide) (by decide)⟩

/-- C4: the field-value classification matches the spec's fixed decision
order (quoted string of length at least 2, else `i`-suffixed integer,
else case-insensitive boolean stored lowercased, else float), quoted
`"42"` is a string, an all-digit unsuffixed literal is a float, never an
integer, and the stored literal is the original text (lower-cased exactly
for booleans). -/
theorem fieldValueClassification :
    (∀ v : GoStr, parseFieldValue v = classifySpecOrder v) ∧
    parseFieldValue (gostr "\"42\"") = .ok (gostr "\"42\"") ∧
    parseFieldValue (gostr "42i") = .ok (gostr "42i") ∧
    parseFieldValue (gostr "42") = .ok (gostr "42") ∧
    parseFieldValue (gostr "TRUE") = .ok (gostr "true") ∧
    parseFieldValue (gostr "\"") = .error (.invalidStringField (gostr "\"")) ∧
    parseFieldValue (gostr "4xi") = .error (.invalidIntegerField (gostr "4xi")) ∧
    parseFieldValue (gostr "abc") = .error (.invalidNumericField (gostr "abc")) ∧
    (∀ v v' : GoStr, parseFieldValue v = .ok v' → v' = v ∨ v' = goToLower v) := by
  refine ⟨?_, by decide, by decide, by decide, by decide, by decide, by decide,
    by decide, ?_⟩
  · intro v
    unfold parseFieldValue classifySpecOrder
    split_ifs <;> first | rfl | omega
  · intro v v' h
    unfold parseFieldValue at h
    split_ifs at h <;> simp_all

/-- Witness for C4's literal-preservation clause at `TRUE`. -/
theorem fieldValueClassificationWitness :
    parseFieldValue (gostr "TRUE") = .ok (gostr "true") ∧
    (gostr "true" = gostr "TRUE" ∨ gostr "true" = goToLower (gostr "TRUE")) :=
  ⟨by decide,
   fieldValueClassification.2.2.2.2.2.2.2.2 (gostr "TRUE") (gostr "true") (by decide)⟩

/-! ### Lemmas: the missing-fields branch of `parse` is dead code -/

theorem goIndexOf_single_none {c : Char} {s : GoStr} (h : c ∉ s) :
    goIndexOf s [c] = none := by
  induction s with
  | nil => rfl
  | cons d t ih =>
    rw [goIndexOf]
    have hd : ¬ d = c := fun he => h (he ▸ List.mem_cons_self d t)
    have hp : goHasPfx (d :: t) [c] = false := by
      simp [goHasPfx, hd]
    rw [hp]
    simp only [Bool.false_eq_true, if_false]
    rw [ih fun hm => h (List.mem_cons_of_mem d hm)]
    rfl

theorem goSplitN2_ne_nil (s sep : GoStr) : goSplitN2 s sep ≠ [] := by
  unfold goSplitN2
  cases goIndexOf s sep <;> simp

theorem parseMeasurementTags_ne_missing (mt : GoStr) :
    parseMeasurementTags mt ≠ .error .missingFields := by
  unfold parseMeasurementTags
  repeat' split
  all_goals simp

theorem stripTagQuotes_ne_error (v : GoStr) (e : PErr) :
    stripTagQuotes v ≠ .error e := by
  unfold stripTagQuotes
  repeat' split
  all_goals simp

theorem parseTagPairs_ne_missing :
    ∀ l : List GoStr, parseTagPairs l ≠ .error .missingFields
  | [] => by simp [parseTagPairs]
  | pair :: rest => by
    have ih := parseTagPairs_ne_missing rest
    unfold parseTagPairs
    split
    · rename_i xs k0 v0 heq
      dsimp only
      cases hsq : stripTagQuotes (goTrimSpace v0) with
      | ok v =>
        simp only [GoResult.bind_ok]
        split_ifs
        · simp
        · simp
        · cases hrest : parseTagPairs rest with
          | ok l => simp
          | error e =>
            simp only [GoResult.bind_error, ne_eq, GoResult.error.injEq]
            intro he
            exact ih (he ▸ hrest)
          | panicked => simp
      | error e => exact absurd hsq (stripTagQuotes_ne_error _ _)
      | panicked => simp
    · simp

theorem parseFieldValue_ne_missing (v : GoStr) :
    parseFieldValue v ≠ .error .missingFields := by
  unfold parseFieldValue
  repeat' split
  all_goals simp

theorem parseFieldPairs_ne_missing :
    ∀ l : List GoStr, parseFieldPairs l ≠ .error .missingFields
  | [] => by simp [parseFieldPairs]
  | fld :: rest => by
    have ih := parseFieldPairs_ne_missing rest
    unfold parseFieldPairs
    split
    · rename_i xs k0 v0 heq
      dsimp only
      split_ifs
      · simp
      · cases hv : parseFieldValue (goTrimSpace v0) with
        | ok v =>
          simp only [GoResult.bind_ok]
          cases hrest : parseFieldPairs rest with
          | ok l => simp
          | error e =>
            simp only [GoResult.bind_error, ne_eq, GoResult.error.injEq]
            intro he
            exact ih (he ▸ hrest)
          | panicked => simp
        | error e =>
          simp only [GoResult.bind_error, ne_eq, GoResult.error.injEq]
          intro he
          exact parseFieldValue_ne_missing _ (he ▸ hv)
        | panicked => simp
    · simp

theorem parse_ne_missingFields (line : GoStr) :
    parse line ≠ .error .missingFields := by
  unfold parse
  dsimp only
  split
  · rename_i xs mt rest heq
    cases hmt : parseMeasurementTags mt with
    | error e =>
      simp only [ne_eq, GoResult.error.injEq]
      intro he
      exact parseMeasurementTags_ne_missing mt (he ▸ hmt)
    | panicked => simp
    | ok p =>
      obtain ⟨m, tagsStr⟩ := p
      dsimp only
      by_cases hm : m = []
      · rw [if_pos hm]; simp
      · rw [if_neg hm]
        cases htags : (if tagsStr = [] then GoResult.ok []
            else parseTagPairs (goSplitOn tagsStr [','])) with
        | error e =>
          simp only [ne_eq, GoResult.error.injEq]
          intro he
          subst he
          split_ifs at htags with ht
          exact parseTagPairs_ne_missing _ htags
        | panicked => simp
        | ok tags =>
          dsimp only
          rw [if_neg (goSplitN2_ne_nil rest [' '])]
          cases hflds : parseFieldPairs (goSplitOn ((goSplitN2 rest [' ']).headD []) [',']) with
          | error e =>
            simp only [ne_eq, GoResult.error.injEq]
            intro he
            exact parseFieldPairs_ne_missing _ (he ▸ hflds)
          | panicked => simp
          | ok fields =>
            repeat' split
            all_goals simp_all
  · simp

/-- C8 amended: `Decode("")` and `Decode("cpu")` fail with InvalidFormat,
as does every line containing no space after trimming; a line that has
the mandatory separating space but zero fields in the fields segment
fails with the InvalidFieldFormat error on the empty field candidate —
not MissingFields, whose branch is unreachable (Go's `SplitN` never
returns an empty slice, so no input at all produces MissingFields). -/
theorem decodeErrorsAmended :
    parse (gostr "") = .error .invalidFormat ∧
    parse (gostr "cpu") = .error .invalidFormat ∧
    (∀ line : GoStr, ' ' ∉ goTrimSpace line → parse line = .error .invalidFormat) ∧
    parse (gostr "cpu  value=42") = .error (.invalidFieldFormat []) ∧
    (∀ line : GoStr, parse line ≠ .error .missingFields) := by
  refine ⟨by decide, by decide, ?_, by decide, parse_ne_missingFields⟩
  intro line h
  have hidx : goIndexOf (goTrimSpace line) [' '] = none := goIndexOf_single_none h
  unfold parse
  dsimp only
  rw [show goSplitN2 (goTrimSpace line) [' '] = [goTrimSpace line] by
    unfold goSplitN2; rw [hidx]]

/-! ### Lemmas on suffixes for the time-bound claim -/

theorem goHasPfx_nil_right (l : GoStr) : goHasPfx l [] = true := by
  cases l <;> rfl

theorem goHasPfx_append_self : ∀ (p t : GoStr), goHasPfx (p ++ t) p = true
  | [], t => goHasPfx_nil_right t
  | c :: ps, t => by simp [goHasPfx, goHasPfx_append_self ps t]

theorem goHasSfx_append_self (s f : GoStr) : goHasSfx (s ++ f) f = true := by
  unfold goHasSfx
  rw [List.reverse_append]
  exact goHasPfx_append_self f.reverse s.reverse

theorem goTrimSfx_append (s f : GoStr) : goTrimSfx (s ++ f) f = s := by
  unfold goTrimSfx
  rw [if_pos (goHasSfx_append_self s f)]
  simp only [List.length_append, Nat.add_sub_cancel]
  exact List.take_left s f

theorem goHasPfx_cons {l : GoStr} {p : Char} {ps : GoStr}
    (h : goHasPfx l (p :: ps) = true) : ∃ t, l = p :: t := by
  cases l with
  | nil => simp [goHasPfx] at h
  | cons c t =>
    simp only [goHasPfx, Bool.and_eq_true, decide_eq_true_eq] at h
    exact ⟨t, by rw [h.1]⟩

theorem digits_hasSfx_ms_false {s : GoStr} (hall : s.all Char.isDigit = true) :
    goHasSfx s (gostr "ms") = false := by
  by_contra h
  rw [Bool.not_eq_false] at h
  unfold goHasSfx at h
  rw [show (gostr "ms").reverse = ['s', 'm'] from rfl] at h
  obtain ⟨t, ht⟩ := goHasPfx_cons h
  have hmem : 's' ∈ s := by
    rw [← List.mem_reverse, ht]
    exact List.mem_cons_self _ _
  have := List.all_eq_true.mp hall _ hmem
  exact absurd this (by decide)

/-- C5 amended: keyword-driven time bounds with the corrected `>=` rule.
The literal after `>=` is parsed only when an `and` follows it; without a
following `and` the bound is silently ignored (start stays 0).  The
literal after `<=` runs to the next space or end of string.  A trailing
`ms` multiplies the parsed value by 1,000,000 and no suffix means
nanoseconds.  A missing `>=` leaves start at 0, a missing `<=` leaves end
at `now`, and the claim's example query yields exactly the stated
descriptor and bucket width. -/
theorem timeBoundsAmended :
    (∀ now : Int,
      interpretQuery (gostr "SELECT mean(\"value\") FROM \"cpu\" WHERE time >= 1000ms and time <= 2000ms GROUP BY time(1m)") now
        = .select ⟨gostr "cpu", gostr "value", gostr "mean", 1000000000, 2000000000⟩) ∧
    groupByWidth (goToLower (gostr "SELECT mean(\"value\") FROM \"cpu\" WHERE time >= 1000ms and time <= 2000ms GROUP BY time(1m)"))
      = .ok 60000000000 ∧
    (∀ tp : GoStr, goIndexOf tp (gostr ">=") = none → parseStartBound tp = .ok none) ∧
    (∀ (tp : GoStr) (i : Nat), goIndexOf tp (gostr ">=") = some i →
      goIndexOf (goTrimSpace (tp.drop (i + 2))) (gostr "and") = none →
      parseStartBound tp = .ok none) ∧
    (∀ tp : GoStr, goIndexOf tp (gostr "<=") = none → parseEndBound tp = .ok none) ∧
    (∀ (s : GoStr) (v : Int) (mk : GoStr → QErr), s.all Char.isDigit = true →
      goParseInt64 s = some v →
      parseTimeLiteral (s ++ gostr "ms") mk = .ok (v * 1000000) ∧
      parseTimeLiteral s mk = .ok v) ∧
    (∀ now : Int, interpretQuery (gostr "select mean(\"value\") from \"cpu\"") now
      = .select ⟨gostr "cpu", gostr "value", gostr "mean", 0, now⟩) := by
  refine ⟨?_, by decide, ?_, ?_, ?_, ?_, ?_⟩
  · intro now
    have hc : interpretSelectCore (goToLower (gostr "SELECT mean(\"value\") FROM \"cpu\" WHERE time >= 1000ms and time <= 2000ms GROUP BY time(1m)")) =
        .ok ⟨gostr "cpu", gostr "value", gostr "mean",
          some 1000000000, some 2000000000⟩ := by decide
    unfold interpretQuery
    dsimp only
    rw [if_neg (by decide), if_neg (by decide), if_neg (by decide),
      if_neg (by decide), hc]
    rfl
  · intro tp h
    unfold parseStartBound
    rw [h]
  · intro tp i h1 h2
    unfold parseStartBound
    rw [h1]
    dsimp only
    rw [h2]
  · intro tp h
    unfold parseEndBound
    rw [h]
  · intro s v mk hall hparse
    constructor
    · unfold parseTimeLiteral
      rw [if_pos (goHasSfx_append_self s (gostr "ms")), goTrimSfx_append, hparse]
    · unfold parseTimeLiteral
      rw [digits_hasSfx_ms_false hall]
      simp only [Bool.false_eq_true, if_false]
      rw [hparse]
  · intro now
    have hc : interpretSelectCore (goToLower (gostr "select mean(\"value\") from \"cpu\"")) =
        .ok ⟨gostr "cpu", gostr "value", gostr "mean", none, none⟩ := by decide
    unfold interpretQuery
    dsimp only
    rw [if_neg (by decide), if_neg (by decide), if_neg (by decide),
      if_neg (by decide), hc]
    rfl

/-- Witness for C5 amended at concrete inputs. -/
theorem timeBoundsAmendedWitness :
    (goIndexOf (gostr "<= 5") (gostr ">=") = none ∧
      parseStartBound (gostr "<= 5") = .ok none) ∧
    ((gostr "1000").all Char.isDigit = true ∧ goParseInt64 (gostr "1000") = some 1000 ∧
      parseTimeLiteral (gostr "1000" ++ gostr "ms") QErr.invalidStartTime = .ok 1000000000 ∧
      parseTimeLiteral (gostr "1000") QErr.invalidStartTime = .ok 1000) :=
  ⟨⟨by decide, timeBoundsAmended.2.2.1 (gostr "<= 5") (by decide)⟩,
   ⟨by decide, by decide,
    (timeBoundsAmended.2.2.2.2.2.1 (gostr "1000") 1000 QErr.invalidStartTime
      (by decide) (by decide)).1,
    (timeBoundsAmended.2.2.2.2.2.1 (gostr "1000") 1000 QErr.invalidStartTime
      (by decide) (by decide)).2⟩⟩

/-- Witness for C8 amended: the no-space clause at `"cpu"`. -/
theorem decodeErrorsAmendedWitness :
    ' ' ∉ goTrimSpace (gostr "cpu") ∧ parse (gostr "cpu") = .error .invalidFormat :=
  ⟨by decide, decodeErrorsAmended.2.2.1 (gostr "cpu") (by decide)⟩

/-! ### Lemmas for the case-handling claim -/

theorem GoResult.bind_eq_ok {ε α β : Type} {x : GoResult ε α}
    {f : α → GoResult ε β} {b : β} (h : GoResult.bind x f = .ok b) :
    ∃ a, x = .ok a ∧ f a = .ok b := by
  cases x with
  | ok a => exact ⟨a, rfl, h⟩
  | error e => simp [GoResult.bind] at h
  | panicked => simp [GoResult.bind] at h

theorem goFieldsAcc_lower : ∀ (s acc : GoStr),
    goFieldsAcc (s.map goLowerChar) (acc.map goLowerChar)
      = (goFieldsAcc s acc).map (List.map goLowerChar) := by
  intro s
  induction s with
  | nil =>
    intro acc
    by_cases h : acc = []
    · subst h; rfl
    · have hm : ¬ acc.map goLowerChar = [] := by simpa using h
      simp [goFieldsAcc, h, hm, List.map_reverse]
  | cons c t ih =>
    intro acc
    simp only [List.map_cons, goFieldsAcc, isGoSpace_goLowerChar c]
    by_cases hspace : isGoSpace c
    · rw [if_pos hspace, if_pos hspace]
      by_cases hacc : acc = []
      · rw [if_pos (by simp [hacc]), if_pos hacc]
        exact ih []
      · rw [if_neg (by simpa using hacc), if_neg hacc]
        rw [List.map_cons, ← List.map_reverse]
        have h0 := ih []
        simp only [List.map_nil] at h0
        rw [h0]
    · rw [if_neg hspace, if_neg hspace]
      exact ih (c :: acc)

theorem goFields_lower (q : GoStr) :
    goFields (goToLower q) = (goFields q).map goToLower := by
  unfold goFields goToLower
  exact goFieldsAcc_lower q []

theorem mem_of_mem_goTrimSpace {ch : Char} {s : GoStr}
    (h : ch ∈ goTrimSpace s) : ch ∈ s := by
  unfold goTrimSpace at h
  rw [List.mem_reverse] at h
  have h1 := (List.dropWhile_sublist _).mem h
  rw [List.mem_reverse] at h1
  exact (List.dropWhile_sublist _).mem h1

theorem mem_of_mem_goTrimCut {ch : Char} {s cutset : GoStr}
    (h : ch ∈ goTrimCut s cutset) : ch ∈ s := by
  unfold goTrimCut at h
  rw [List.mem_reverse] at h
  have h1 := (List.dropWhile_sublist _).mem h
  rw [List.mem_reverse] at h1
  exact (List.dropWhile_sublist _).mem h1

theorem mem_of_mem_stripQueryQuotes {ch : Char} {s : GoStr}
    (h : ch ∈ stripQueryQuotes s) : ch ∈ s :=
  mem_of_mem_goTrimCut (mem_of_mem_goTrimCut h)

theorem mem_of_mem_goTrimPfx {ch : Char} {s p : GoStr}
    (h : ch ∈ goTrimPfx s p) : ch ∈ s := by
  unfold goTrimPfx at h
  split_ifs at h
  · exact List.mem_of_mem_drop h
  · exact h

theorem mem_of_mem_goSplitOnFuel : ∀ (fuel : Nat) (s sep x : GoStr) (ch : Char),
    x ∈ goSplitOnFuel fuel s sep → ch ∈ x → ch ∈ s := by
  intro fuel
  induction fuel with
  | zero =>
    intro s sep x ch hx hch
    simp only [goSplitOnFuel, List.mem_singleton] at hx
    exact hx ▸ hch
  | succ fuel ih =>
    intro s sep x ch hx hch
    rw [goSplitOnFuel] at hx
    cases hidx : goIndexOf s sep with
    | none =>
      rw [hidx] at hx
      simp only [List.mem_singleton] at hx
      exact hx ▸ hch
    | some i =>
      rw [hidx] at hx
      simp only [List.mem_cons] at hx
      rcases hx with hx | hx
      · exact List.mem_of_mem_take (hx ▸ hch)
      · exact List.mem_of_mem_drop (ih _ _ _ _ hx hch)

theorem mem_of_mem_goSplitOn {s sep x : GoStr} {ch : Char}
    (hx : x ∈ goSplitOn s sep) (hch : ch ∈ x) : ch ∈ s := by
  unfold goSplitOn at hx
  split_ifs at hx
  · simp only [List.mem_singleton] at hx
    exact hx ▸ hch
  · exact mem_of_mem_goSplitOnFuel _ _ _ _ _ hx hch

theorem headD_mem_or_default {α : Type} (l : List α) (d : α) :
    l.headD d ∈ l ∨ l.headD d = d := by
  cases l with
  | nil => exact Or.inr rfl
  | cons x t => exact Or.inl (by simp)

theorem getD_mem_or_default {α : Type} :
    ∀ (l : List α) (i : Nat) (d : α), l.getD i d ∈ l ∨ l.getD i d = d := by
  intro l
  induction l with
  | nil => intro i d; exact Or.inr (by simp)
  | cons x t ih =>
    intro i d
    cases i with
    | zero => exact Or.inl (by simp)
    | succ i =>
      have hstep : (x :: t).getD (i + 1) d = t.getD i d := rfl
      rcases ih i d with h | h
      · exact Or.inl (by rw [hstep]; exact List.mem_cons_of_mem x h)
      · exact Or.inr (by rw [hstep]; exact h)

theorem selectPartOf_chars {ql : GoStr} {ch : Char}
    (h : ch ∈ selectPartOf ql) : ch ∈ ql := by
  unfold selectPartOf at h
  have ha := mem_of_mem_goTrimPfx (mem_of_mem_goTrimSpace h)
  rcases headD_mem_or_default (goSplitOn ql (gostr "from")) [] with hmem | hdef
  · exact mem_of_mem_goSplitOn hmem ha
  · rw [hdef] at ha; simp at ha

theorem fieldSelOf_chars {ql : GoStr} {ch : Char}
    (h : ch ∈ (fieldSelOf ql).2) : ch ∈ ql ∨ ch = '*' := by
  unfold fieldSelOf at h
  split_ifs at h with hsel
  · rcases hagg : findAgg (selectPartOf ql) with _ | agg <;> rw [hagg] at h
    · exact Or.inl (selectPartOf_chars h)
    · dsimp only at h
      have hb := mem_of_mem_goTrimCut h
      rcases getD_mem_or_default (goSplitOn (selectPartOf ql) ['(']) 1 [] with hmem | hdef
      · exact Or.inl (selectPartOf_chars (mem_of_mem_goSplitOn hmem hb))
      · rw [hdef] at hb; simp at hb
  · dsimp only at h
    rw [show gostr "*" = ['*'] from rfl, List.mem_singleton] at h
    exact Or.inr h

theorem fromStep_chars {ql : GoStr} {st : GoStr × Option Int × Option Int}
    (hst : fromStep ql = .ok st) : ∀ ch ∈ st.1, ch ∈ ql := by
  intro ch hch
  unfold fromStep at hst
  split_ifs at hst with hcond
  · dsimp only at hst
    rcases hgi : goIndexOf (goTrimSpace ((goSplitOn ql (gostr "from")).getD 1 []))
        (gostr "where") with _ | wi <;> rw [hgi] at hst
    · rw [GoResult.ok.injEq] at hst
      subst hst
      have h3 := mem_of_mem_goTrimSpace hch
      rcases getD_mem_or_default (goSplitOn ql (gostr "from")) 1 [] with hmem | hdef
      · exact mem_of_mem_goSplitOn hmem h3
      · rw [hdef] at h3; simp at h3
    · obtain ⟨bounds, _, hb2⟩ := GoResult.bind_eq_ok hst
      rw [GoResult.ok.injEq] at hb2
      subst hb2
      dsimp only at hch
      have h3 := mem_of_mem_goTrimSpace (List.mem_of_mem_take
        (mem_of_mem_goTrimSpace hch))
      rcases getD_mem_or_default (goSplitOn ql (gostr "from")) 1 [] with hmem | hdef
      · exact mem_of_mem_goSplitOn hmem h3
      · rw [hdef] at h3; simp at h3
  · rw [GoResult.ok.injEq] at hst
    subst hst
    simp at hch

/-- Every character of the measurement of a successfully interpreted
SELECT descriptor occurs in the query text the interpreter ran on, and
every character of the field occurs there or is the `*` selector. -/
theorem interpretSelectCore_chars {ql : GoStr} {c : SelectCore}
    (h : interpretSelectCore ql = .ok c) :
    (∀ ch ∈ c.measurement, ch ∈ ql) ∧ (∀ ch ∈ c.field, ch ∈ ql ∨ ch = '*') := by
  unfold interpretSelectCore at h
  obtain ⟨st, hst, hk⟩ := GoResult.bind_eq_ok h
  dsimp only at hk
  split_ifs at hk with hm
  rw [GoResult.ok.injEq] at hk
  cases hk
  constructor
  · intro ch hch
    have h2 := mem_of_mem_goTrimSpace (mem_of_mem_stripQueryQuotes hch)
    rcases headD_mem_or_default (goSplitOn st.1 (gostr "group by")) [] with hmem | hdef
    · exact fromStep_chars hst ch (mem_of_mem_goSplitOn hmem h2)
    · rw [hdef] at h2; simp at h2
  · intro ch hch
    exact fieldSelOf_chars (mem_of_mem_stripQueryQuotes hch)

/-- C6 amended: keyword matching is case-insensitive — SHOW MEASUREMENTS
is recognised whenever the lower-cased query matches, and in general a
query and its lower-cased form produce the same command kind — and
database names in CREATE DATABASE and USE retain their original case;
but SELECT identifiers do not: the measurement and field of every select
descriptor are lower-cased (they are extracted from the lower-cased
query text). -/
theorem caseHandlingAmended :
    (∀ (q : GoStr) (now : Int), goToLower q = gostr "show measurements" →
      interpretQuery q now = .showMeasurements) ∧
    (∀ (q : GoStr) (now : Int),
      resultKind (interpretQuery q now) = resultKind (interpretQuery (goToLower q) now)) ∧
    interpretQuery (gostr "CREATE DATABASE MyDB") 0 = .createDatabase (gostr "MyDB") ∧
    interpretQuery (gostr "USE MyDB") 0 = .useDb (gostr "MyDB") ∧
    (∀ (q : GoStr) (now : Int) (d : SelectDesc), interpretQuery q now = .select d →
      goToLower d.measurement = d.measurement ∧ goToLower d.field = d.field) := by
  refine ⟨?_, ?_, by decide, by decide, ?_⟩
  · intro q now h
    unfold interpretQuery
    dsimp only
    rw [h, if_neg (by decide), if_pos rfl]
  · intro q now
    unfold interpretQuery
    dsimp only
    rw [goToLower_idem, goFields_lower]
    simp only [List.length_map]
    split_ifs <;> rfl
  · intro q now d h
    unfold interpretQuery at h
    dsimp only at h
    split_ifs at h <;> try simp at h
    cases hcore : interpretSelectCore (goToLower q) with
    | error e => rw [hcore] at h; simp at h
    | panicked => rw [hcore] at h; simp at h
    | ok c =>
      rw [hcore] at h
      dsimp only at h
      rw [QueryResult.select.injEq] at h
      subst h
      have hchar : ∀ ch ∈ goToLower q, goLowerChar ch = ch := by
        intro ch hch
        rcases List.mem_map.mp hch with ⟨c0, _, rfl⟩
        exact goLowerChar_idem c0
      have hm := (interpretSelectCore_chars hcore).1
      have hf := (interpretSelectCore_chars hcore).2
      constructor
      · show goToLower c.measurement = c.measurement
        unfold goToLower
        calc c.measurement.map goLowerChar
            = c.measurement.map id :=
              List.map_congr_left fun ch hch => hchar ch (hm ch hch)
          _ = c.measurement := List.map_id _
      · show goToLower c.field = c.field
        unfold goToLower
        calc c.field.map goLowerChar
            = c.field.map id := by
              refine List.map_congr_left fun ch hch => ?_
              rcases hf ch hch with hql | hstar
              · exact hchar ch hql
              · rw [hstar]; decide
          _ = c.field := List.map_id _

/-! ### Lemmas for the mean-aggregation claim -/

theorem insertSorted_perm (x : Int) (l : List Int) :
    List.Perm (insertSorted x l) (x :: l) := by
  induction l with
  | nil => exact List.Perm.refl _
  | cons y t ih =>
    unfold insertSorted
    split_ifs
    · exact List.Perm.refl _
    · exact (ih.cons y).trans (List.Perm.swap x y t)

theorem sortInts_perm (l : List Int) : List.Perm (sortInts l) l := by
  induction l with
  | nil => exact List.Perm.refl _
  | cons x t ih =>
    have hstep : sortInts (x :: t) = insertSorted x (sortInts t) := rfl
    rw [hstep]
    exact (insertSorted_perm x (sortInts t)).trans (ih.cons x)

theorem insertSorted_sorted {x : Int} {l : List Int}
    (h : l.Pairwise (· ≤ ·)) : (insertSorted x l).Pairwise (· ≤ ·) := by
  induction l with
  | nil => simp [insertSorted]
  | cons y t ih =>
    rcases List.pairwise_cons.mp h with ⟨hy, ht⟩
    unfold insertSorted
    split_ifs with hxy
    · refine List.pairwise_cons.mpr ⟨?_, h⟩
      intro z hz
      rcases List.mem_cons.mp hz with rfl | hz
      · exact le_of_lt hxy
      · exact le_of_lt (lt_of_lt_of_le hxy (hy z hz))
    · refine List.pairwise_cons.mpr ⟨?_, ih ht⟩
      intro z hz
      have hz2 := (insertSorted_perm x t).mem_iff.mp hz
      rcases List.mem_cons.mp hz2 with rfl | hz2
      · exact le_of_not_lt hxy
      · exact hy z hz2

theorem sortInts_sorted (l : List Int) : (sortInts l).Pairwise (· ≤ ·) := by
  induction l with
  | nil => simp [sortInts]
  | cons x t ih => exact insertSorted_sorted ih

theorem addToBucket_keys_mem (acc : List (Int × List Float)) (b : Int)
    (v : Float) (x : Int) :
    x ∈ (addToBucket acc b v).map Prod.fst ↔ x ∈ acc.map Prod.fst ∨ x = b := by
  induction acc with
  | nil => simp [addToBucket]
  | cons kv t ih =>
    obtain ⟨b2, vs⟩ := kv
    unfold addToBucket
    split_ifs with hb
    · subst hb
      simp only [List.map_cons, List.mem_cons]
      tauto
    · simp only [List.map_cons, List.mem_cons, ih]
      tauto

theorem addToBucket_keys_nodup {acc : List (Int × List Float)} {b : Int}
    {v : Float} (h : (acc.map Prod.fst).Nodup) :
    ((addToBucket acc b v).map Prod.fst).Nodup := by
  induction acc with
  | nil => simp [addToBucket]
  | cons kv t ih =>
    obtain ⟨b2, vs⟩ := kv
    rw [List.map_cons, List.nodup_cons] at h
    unfold addToBucket
    split_ifs with hb
    · subst hb
      rw [List.map_cons, List.nodup_cons]
      exact h
    · rw [List.map_cons, List.nodup_cons]
      refine ⟨?_, ih h.2⟩
      intro hmem
      rw [addToBucket_keys_mem] at hmem
      rcases hmem with hmem | hmem
      · exact h.1 hmem
      · exact hb hmem

theorem foldl_groupStep_mem (field : GoStr) (w : Int) :
    ∀ (pts : List Point) (acc : List (Int × List Float)) (x : Int),
      x ∈ (pts.foldl (groupStep field w) acc).map Prod.fst ↔
        x ∈ acc.map Prod.fst ∨ ∃ p ∈ pts, (goMapGet p.fields field).isSome ∧
          x = p.ts - Int.tmod p.ts w := by
  intro pts
  induction pts with
  | nil => intro acc x; simp
  | cons p t ih =>
    intro acc x
    rw [List.foldl_cons, ih]
    unfold groupStep
    cases hg : goMapGet p.fields field with
    | none =>
      constructor
      · rintro (hx | ⟨p2, hp2, hsome, hx⟩)
        · exact Or.inl hx
        · exact Or.inr ⟨p2, List.mem_cons_of_mem p hp2, hsome, hx⟩
      · rintro (hx | ⟨p2, hp2, hsome, hx⟩)
        · exact Or.inl hx
        · rcases List.mem_cons.mp hp2 with rfl | hp2
          · rw [hg] at hsome; simp at hsome
          · exact Or.inr ⟨p2, hp2, hsome, hx⟩
    | some v =>
      rw [addToBucket_keys_mem]
      constructor
      · rintro ((hx | hx) | ⟨p2, hp2, hsome, hx⟩)
        · exact Or.inl hx
        · exact Or.inr ⟨p, List.mem_cons_self p t, by rw [hg]; rfl, hx⟩
        · exact Or.inr ⟨p2, List.mem_cons_of_mem p hp2, hsome, hx⟩
      · rintro (hx | ⟨p2, hp2, hsome, hx⟩)
        · exact Or.inl (Or.inl hx)
        · rcases List.mem_cons.mp hp2 with rfl | hp2
          · exact Or.inl (Or.inr hx)
          · exact Or.inr ⟨p2, hp2, hsome, hx⟩

theorem foldl_groupStep_nodup (field : GoStr) (w : Int) :
    ∀ (pts : List Point) (acc : List (Int × List Float)),
      (acc.map Prod.fst).Nodup →
      ((pts.foldl (groupStep field w) acc).map Prod.fst).Nodup := by
  intro pts
  induction pts with
  | nil => intro acc h; simpa using h
  | cons p t ih =>
    intro acc h
    rw [List.foldl_cons]
    apply ih
    unfold groupStep
    cases goMapGet p.fields field with
    | none => exact h
    | some v => exact addToBucket_keys_nodup h

theorem foldl_groupStep_filter (field : GoStr) (w : Int) :
    ∀ (pts : List Point) (acc : List (Int × List Float)),
      (pts.filter fun p => (goMapGet p.fields field).isSome).foldl
          (groupStep field w) acc
        = pts.foldl (groupStep field w) acc := by
  intro pts
  induction pts with
  | nil => intro acc; rfl
  | cons p t ih =>
    intro acc
    cases hg : goMapGet p.fields field with
    | none =>
      rw [List.filter_cons_of_neg (by simp [hg]), ih, List.foldl_cons]
      unfold groupStep
      rw [hg]
    | some v =>
      rw [List.filter_cons_of_pos (by simp [hg]), List.foldl_cons,
        List.foldl_cons, ih]

/-- C2 amended: mean aggregation.  Each contributing point's bucket is
`ts - (ts mod w)` (truncated mod, as in Go); points lacking the selected
field contribute nothing (removing them changes nothing); exactly one row
per distinct bucket is emitted — the row list maps the strictly
ascending list of distinct buckets — and each row is
`(bucket / 1,000,000, sum/count)`: the emitted time column is the bucket
converted to milliseconds, as the counterexample shows.  On the spec's
example points the two rows carry the bucket means of {1,2} and {4}. -/
theorem meanAggregationAmended (field : GoStr) (w : Int) (pts : List Point) :
    meanRows field w pts =
      (sortInts ((groupPoints field w pts).map Prod.fst)).map (fun b =>
        (Int.tdiv b 1000000,
          sumFloats (bucketValues (groupPoints field w pts) b) /
            Float.ofNat (bucketValues (groupPoints field w pts) b).length)) ∧
    (sortInts ((groupPoints field w pts).map Prod.fst)).Pairwise (· < ·) ∧
    (∀ b : Int, b ∈ sortInts ((groupPoints field w pts).map Prod.fst) ↔
      ∃ p ∈ pts, (goMapGet p.fields field).isSome ∧
        b = p.ts - Int.tmod p.ts w) ∧
    meanRows field w (pts.filter fun p => (goMapGet p.fields field).isSome)
      = meanRows field w pts ∧
    meanRows (gostr "value") 60000000000 examplePoints =
      [(0, sumFloats [1.0, 2.0] / Float.ofNat 2),
       (60000, sumFloats [4.0] / Float.ofNat 1)] := by
  refine ⟨rfl, ?_, ?_, ?_, rfl⟩
  · have hnodup : ((groupPoints field w pts).map Prod.fst).Nodup :=
      foldl_groupStep_nodup field w pts [] (by simp)
    have hsorted := sortInts_sorted ((groupPoints field w pts).map Prod.fst)
    have hnodup2 : (sortInts ((groupPoints field w pts).map Prod.fst)).Nodup :=
      (sortInts_perm _).nodup_iff.mpr hnodup
    exact (hsorted.and hnodup2).imp fun h => lt_of_le_of_ne h.1 h.2
  · intro b
    rw [(sortInts_perm _).mem_iff]
    have := foldl_groupStep_mem field w pts [] b
    simpa using this
  · unfold meanRows groupPoints
    rw [foldl_groupStep_filter]

/-! ### String-operation lemmas for the round-trip claim -/

theorem goHasPfx_decomp : ∀ {s p : GoStr}, goHasPfx s p = true →
    s = p ++ s.drop p.length := by
  intro s
  induction s with
  | nil =>
    intro p h
    cases p with
    | nil => rfl
    | cons c t => simp [goHasPfx] at h
  | cons c t ih =>
    intro p h
    cases p with
    | nil => rfl
    | cons d q =>
      simp only [goHasPfx, Bool.and_eq_true, decide_eq_true_eq] at h
      rw [h.1] at *
      have := ih h.2
      calc d :: t = d :: (q ++ t.drop q.length) := by rw [← this]
        _ = (d :: q) ++ (d :: t).drop (d :: q).length := by simp

theorem goIndexOf_decomp : ∀ {s sub : GoStr} {i : Nat},
    goIndexOf s sub = some i → s = s.take i ++ sub ++ s.drop (i + sub.length) := by
  intro s
  induction s with
  | nil =>
    intro sub i h
    rw [goIndexOf] at h
    by_cases hp : goHasPfx [] sub
    · rw [if_pos hp] at h
      cases h
      have := goHasPfx_decomp hp
      simpa using this.symm ▸ (by simp [← this])
    · rw [if_neg hp] at h
      cases h
  | cons c t ih =>
    intro sub i h
    rw [goIndexOf] at h
    by_cases hp : goHasPfx (c :: t) sub
    · rw [if_pos hp] at h
      cases h
      have hd := goHasPfx_decomp hp
      simpa using hd
    · rw [if_neg hp] at h
      cases hidx : goIndexOf t sub with
      | none => rw [hidx] at h; cases h
      | some j =>
        rw [hidx] at h
        simp only [Option.map_some', Option.some.injEq] at h
        subst h
        have := ih hidx
        calc c :: t = c :: (t.take j ++ sub ++ t.drop (j + sub.length)) := by rw [← this]
          _ = (c :: t).take (j + 1) ++ sub ++ (c :: t).drop (j + 1 + sub.length) := by
            rw [List.take_succ_cons,
              show j + 1 + sub.length = (j + sub.length) + 1 by omega,
              List.drop_succ_cons]
            simp

theorem goHasPfx_single_false {c d : Char} {t : GoStr} (h : ¬ d = c) :
    goHasPfx (d :: t) [c] = false := by
  simp [goHasPfx, h]

theorem goIndexOf_single_take {c : Char} : ∀ {s : GoStr} {i : Nat},
    goIndexOf s [c] = some i → c ∉ s.take i := by
  intro s
  induction s with
  | nil => intro i h; simp
  | cons d t ih =>
    intro i h
    rw [goIndexOf] at h
    by_cases hd : d = c
    · have hp : goHasPfx (d :: t) [c] = true := by simp [goHasPfx, hd]
      rw [if_pos hp] at h
      cases h
      simp
    · rw [if_neg (by rw [goHasPfx_single_false hd]; simp)] at h
      cases hidx : goIndexOf t [c] with
      | none => rw [hidx] at h; cases h
      | some j =>
        rw [hidx] at h
        simp only [Option.map_some', Option.some.injEq] at h
        subst h
        intro hmem
        rw [List.take_succ_cons] at hmem
        rcases List.mem_cons.mp hmem with rfl | hmem
        · exact hd rfl
        · exact ih hidx hmem

theorem goIndexOf_append_cons {c : Char} : ∀ {a : GoStr} (b : GoStr),
    c ∉ a → goIndexOf (a ++ c :: b) [c] = some a.length := by
  intro a
  induction a with
  | nil =>
    intro b _
    show goIndexOf (c :: b) [c] = some 0
    rw [goIndexOf, if_pos (by simp [goHasPfx])]
  | cons d t ih =>
    intro b h
    have hd : ¬ d = c := fun he => h (he ▸ List.mem_cons_self d t)
    rw [List.cons_append, goIndexOf,
      if_neg (by rw [goHasPfx_single_false hd]; simp),
      ih b fun hm => h (List.mem_cons_of_mem d hm)]
    rfl

theorem goSplitN2_append {c : Char} {a : GoStr} (b : GoStr) (h : c ∉ a) :
    goSplitN2 (a ++ c :: b) [c] = [a, b] := by
  have h1 : (a ++ c :: b).take a.length = a := List.take_left a (c :: b)
  have h2 : (a ++ c :: b).drop (a.length + 1) = b := by
    have heq : a ++ c :: b = (a ++ [c]) ++ b := by simp
    rw [heq, show a.length + 1 = (a ++ [c]).length by simp]
    exact List.drop_left (a ++ [c]) b
  unfold goSplitN2
  rw [goIndexOf_append_cons b h]
  show [(a ++ c :: b).take a.length, (a ++ c :: b).drop (a.length + 1)] = [a, b]
  rw [h1, h2]

theorem goSplitN2_no_sep {c : Char} {s : GoStr} (h : c ∉ s) :
    goSplitN2 s [c] = [s] := by
  unfold goSplitN2
  rw [goIndexOf_single_none h]

theorem goSplitN2_pair_inv {c : Char} {s a b : GoStr}
    (h : goSplitN2 s [c] = [a, b]) :
    c ∉ a ∧ s = a ++ c :: b := by
  unfold goSplitN2 at h
  cases hidx : goIndexOf s [c] with
  | none => rw [hidx] at h; simp at h
  | some i =>
    rw [hidx] at h
    simp only [List.cons.injEq, and_true] at h
    obtain ⟨ha, hb⟩ := h
    subst ha
    subst hb
    refine ⟨goIndexOf_single_take hidx, ?_⟩
    have := goIndexOf_decomp hidx
    conv_lhs => rw [this]
    simp

theorem goIndexOf_single_none_inv {c : Char} : ∀ {s : GoStr},
    goIndexOf s [c] = none → c ∉ s := by
  intro s
  induction s with
  | nil => intro _; simp
  | cons d t ih =>
    intro h hmem
    rw [goIndexOf] at h
    by_cases hd : d = c
    · rw [if_pos (by simp [goHasPfx, hd])] at h
      cases h
    · rw [if_neg (by rw [goHasPfx_single_false hd]; simp)] at h
      cases hidx : goIndexOf t [c] with
      | some j => rw [hidx] at h; cases h
      | none =>
        rcases List.mem_cons.mp hmem with rfl | hmem2
        · exact hd rfl
        · exact ih hidx hmem2

theorem goSplitN2_single_inv {c : Char} {s a : GoStr}
    (h : goSplitN2 s [c] = [a]) : s = a ∧ c ∉ a := by
  unfold goSplitN2 at h
  cases hidx : goIndexOf s [c] with
  | none =>
    rw [hidx] at h
    simp only [List.cons.injEq, and_true] at h
    subst h
    exact ⟨rfl, goIndexOf_single_none_inv hidx⟩
  | some i => rw [hidx] at h; simp at h

theorem goSplitOn_single_parts {c : Char} : ∀ (fuel : Nat) (s : GoStr),
    s.length < fuel → ∀ x ∈ goSplitOnFuel fuel s [c], c ∉ x := by
  intro fuel
  induction fuel with
  | zero => intro s h; omega
  | succ fuel ih =>
    intro s hlen x hx
    rw [goSplitOnFuel] at hx
    cases hidx : goIndexOf s [c] with
    | none =>
      rw [hidx] at hx
      simp only [List.mem_singleton] at hx
      subst hx
      exact goIndexOf_single_none_inv hidx
    | some i =>
      rw [hidx] at hx
      simp only [List.mem_cons] at hx
      rcases hx with rfl | hx
      · exact goIndexOf_single_take hidx
      · have hb := goIndexOf_some_bound (by simp) hidx
        have : (s.drop (i + 1)).length < fuel := by
          simp only [List.length_drop]
          have : s.length ≥ 1 := by
            cases hse : s with
            | nil => exact absurd hse hb.1
            | cons a l => simp
          omega
        exact ih (s.drop (i + 1)) this x hx

theorem goSplitOn_no_sep_parts {c : Char} {s x : GoStr}
    (hx : x ∈ goSplitOn s [c]) : c ∉ x := by
  unfold goSplitOn at hx
  rw [if_neg (by simp)] at hx
  exact goSplitOn_single_parts (s.length + 1) s (Nat.lt_succ_self _) x hx

theorem goSplitOn_intercalate {c : Char} :
    ∀ (parts : List GoStr), parts ≠ [] → (∀ x ∈ parts, c ∉ x) →
      goSplitOn (List.intercalate [c] parts) [c] = parts := by
  intro parts
  induction parts with
  | nil => intro h; exact absurd rfl h
  | cons a t ih =>
    intro _ hfree
    cases t with
    | nil =>
      rw [show List.intercalate [c] [a] = a by simp [List.intercalate]]
      unfold goSplitOn
      rw [if_neg (by simp), goSplitOnFuel,
        goIndexOf_single_none (hfree a (List.mem_cons_self a []))]
    | cons b t2 =>
      have hstep : List.intercalate [c] (a :: b :: t2)
          = a ++ c :: List.intercalate [c] (b :: t2) := by
        simp [List.intercalate, List.intersperse]
      have h1 : (a ++ c :: List.intercalate [c] (b :: t2)).take a.length = a :=
        List.take_left a _
      have h2 : (a ++ c :: List.intercalate [c] (b :: t2)).drop (a.length + 1)
          = List.intercalate [c] (b :: t2) := by
        have heq : a ++ c :: List.intercalate [c] (b :: t2)
            = (a ++ [c]) ++ List.intercalate [c] (b :: t2) := by simp
        rw [heq, show a.length + 1 = (a ++ [c]).length by simp]
        exact List.drop_left _ _
      rw [hstep, goSplitOn_eq _ (by simp : ([c] : GoStr) ≠ []),
        goIndexOf_append_cons _ (hfree a (List.mem_cons_self a _))]
      show (a ++ c :: List.intercalate [c] (b :: t2)).take a.length
          :: goSplitOn ((a ++ c :: List.intercalate [c] (b :: t2)).drop (a.length + 1)) [c]
          = a :: b :: t2
      rw [h1, h2, ih (by simp) fun x hx => hfree x (List.mem_cons_of_mem a hx)]

/-! ### Trim, digit and map-lookup lemmas for the round-trip claim -/

theorem dropWhile_head_false {p : Char → Bool} :
    ∀ {l : List Char} {c : Char} {t : List Char},
      l.dropWhile p = c :: t → p c = false := by
  intro l
  induction l with
  | nil => intro c t h; simp at h
  | cons d q ih =>
    intro c t h
    rw [List.dropWhile_cons] at h
    split_ifs at h with hd
    · exact ih h
    · rw [List.cons.injEq] at h
      rw [← h.1]
      exact Bool.of_not_eq_true hd

theorem goTrimSpace_eq_self {s : GoStr}
    (h1 : ∀ c, s.head? = some c → isGoSpace c = false)
    (h2 : ∀ c, s.getLast? = some c → isGoSpace c = false) :
    goTrimSpace s = s := by
  unfold goTrimSpace
  have hd : s.dropWhile isGoSpace = s := by
    cases hs : s with
    | nil => rfl
    | cons c t =>
      rw [List.dropWhile_cons, if_neg (by rw [h1 c (by rw [hs]; rfl)]; simp)]
  rw [hd]
  have hrev : s.reverse.dropWhile isGoSpace = s.reverse := by
    cases hr : s.reverse with
    | nil => rfl
    | cons c t =>
      have hlast : s.getLast? = some c := by
        rw [← List.head?_reverse, hr]
        rfl
      rw [List.dropWhile_cons, if_neg (by rw [h2 c hlast]; simp)]
  rw [hrev, List.reverse_reverse]

theorem goTrimSpace_head {s : GoStr} {c : Char}
    (h : (goTrimSpace s).head? = some c) : isGoSpace c = false := by
  unfold goTrimSpace at h
  rw [List.head?_reverse] at h
  obtain ⟨pre, hpre⟩ := List.dropWhile_suffix
    (l := (s.dropWhile isGoSpace).reverse) (p := isGoSpace)
  cases hy : (s.dropWhile isGoSpace).reverse.dropWhile isGoSpace with
  | nil => rw [hy] at h; simp at h
  | cons y ys =>
    rw [hy] at h
    rw [hy] at hpre
    have hlast : ((s.dropWhile isGoSpace).reverse).getLast? = some c := by
      rw [← hpre, List.getLast?_append_of_ne_nil pre (by simp)]
      exact h
    rw [List.getLast?_reverse] at hlast
    cases hw : s.dropWhile isGoSpace with
    | nil => rw [hw] at hlast; simp at hlast
    | cons w ws =>
      rw [hw] at hlast
      simp only [List.head?_cons, Option.some.injEq] at hlast
      rw [← hlast]
      exact dropWhile_head_false hw

theorem goTrimSpace_last {s : GoStr} {c : Char}
    (h : (goTrimSpace s).getLast? = some c) : isGoSpace c = false := by
  unfold goTrimSpace at h
  rw [List.getLast?_reverse] at h
  cases hy : (s.dropWhile isGoSpace).reverse.dropWhile isGoSpace with
  | nil => rw [hy] at h; simp at h
  | cons y ys =>
    rw [hy] at h
    rw [List.head?_cons, Option.some.injEq] at h
    rw [← h]
    exact dropWhile_head_false hy

theorem goTrimSpace_idem (s : GoStr) :
    goTrimSpace (goTrimSpace s) = goTrimSpace s :=
  goTrimSpace_eq_self (fun _ h => goTrimSpace_head h)
    (fun _ h => goTrimSpace_last h)

theorem charIsDigit_iff {c : Char} :
    c.isDigit = true ↔ 48 ≤ c.toNat ∧ c.toNat ≤ 57 := by
  unfold Char.isDigit
  simp only [Bool.and_eq_true, decide_eq_true_eq]
  constructor
  · rintro ⟨a, b⟩; exact ⟨a, b⟩
  · rintro ⟨a, b⟩; exact ⟨a, b⟩

theorem natToChars_digits (n : Nat) :
    ∀ c ∈ natToChars n, 48 ≤ c.toNat ∧ c.toNat ≤ 57 := by
  induction n using Nat.strong_induction_on with
  | _ n ih =>
    rw [natToChars_eq]
    split_ifs with h
    · intro c hc
      simp only [List.mem_singleton] at hc
      subst hc
      rw [char_toNat_ofNat (by omega)]
      omega
    · intro c hc
      rcases List.mem_append.mp hc with hc | hc
      · exact ih (n / 10) (Nat.div_lt_self (by omega) (by norm_num)) c hc
      · simp only [List.mem_singleton] at hc
        subst hc
        have hm : n % 10 < 10 := Nat.mod_lt n (by norm_num)
        rw [char_toNat_ofNat (by omega)]
        omega

theorem natToChars_ne_nil (n : Nat) : natToChars n ≠ [] := by
  rw [natToChars_eq]
  split_ifs <;> simp

theorem digitsToNat_append (a : GoStr) (c : Char) :
    digitsToNat (a ++ [c]) = digitsToNat a * 10 + (c.toNat - 48) := by
  unfold digitsToNat
  rw [List.foldl_append]
  rfl

theorem digitsToNat_natToChars (n : Nat) : digitsToNat (natToChars n) = n := by
  induction n using Nat.strong_induction_on with
  | _ n ih =>
    rw [natToChars_eq]
    split_ifs with h
    · show digitsToNat [Char.ofNat (48 + n)] = n
      unfold digitsToNat
      simp [char_toNat_ofNat (show 48 + n < 55296 by omega)]
    · rw [digitsToNat_append,
        ih (n / 10) (Nat.div_lt_self (by omega) (by norm_num)),
        char_toNat_ofNat (by have := Nat.mod_lt n (show 0 < 10 by norm_num); omega)]
      have hm : 48 + n % 10 - 48 = n % 10 := by omega
      rw [hm]
      omega

theorem goParseInt64_natToChars {t : Int} (h0 : 0 < t) (h1 : t ≤ 2 ^ 63 - 1) :
    goParseInt64 (natToChars t.toNat) = some t := by
  have hdigits := natToChars_digits t.toNat
  cases hn : natToChars t.toNat with
  | nil => exact absurd hn (natToChars_ne_nil _)
  | cons c cs =>
    have hc := hdigits c (by rw [hn]; exact List.mem_cons_self c cs)
    have hcp : ¬ c = '+' := by
      intro he; rw [he] at hc
      exact absurd hc (by decide)
    have hcm : ¬ c = '-' := by
      intro he; rw [he] at hc
      exact absurd hc (by decide)
    have hall : (c :: cs).all Char.isDigit = true := by
      simp only [List.all_eq_true]
      intro d hd
      exact charIsDigit_iff.mpr (hdigits d (hn ▸ hd))
    have hv : digitsToNat (c :: cs) = t.toNat := by
      rw [← hn, digitsToNat_natToChars]
    unfold goParseInt64
    dsimp only
    rw [if_neg hcp, if_neg hcm]
    dsimp only
    rw [if_neg (show ¬ (c :: cs = []) by simp), if_pos hall]
    rw [if_neg (show ¬ (false = true) by simp), hv,
      Int.toNat_of_nonneg (le_of_lt h0), if_pos]
    simp only [Bool.and_eq_true, decide_eq_true_eq]
    omega

theorem goMapGet_isSome_iff {β : Type} :
    ∀ (l : List (GoStr × β)) (k : GoStr),
      (goMapGet l k).isSome = true ↔ k ∈ l.map Prod.fst := by
  intro l
  induction l with
  | nil =>
    intro k
    rw [show goMapGet ([] : List (GoStr × β)) k = none from rfl]
    simp
  | cons kv t ih =>
    intro k
    unfold goMapGet
    cases hg : goMapGet t k with
    | some v =>
      dsimp only
      simp only [Option.isSome_some, List.map_cons, List.mem_cons, true_iff]
      exact Or.inr ((ih k).mp (by rw [hg]; rfl))
    | none =>
      dsimp only
      by_cases hk : kv.1 = k
      · rw [if_pos hk]
        simp only [Option.isSome_some, List.map_cons, List.mem_cons, true_iff]
        exact Or.inl hk.symm
      · rw [if_neg hk]
        simp only [Option.isSome_none, List.map_cons, List.mem_cons]
        constructor
        · intro h; exact absurd h (by simp)
        · rintro (h | h)
          · exact absurd h.symm hk
          · have h2 := (ih k).mpr h
            rw [hg] at h2
            exact absurd h2 (by simp)

theorem goMapGet_mem {β : Type} :
    ∀ {l : List (GoStr × β)} {k : GoStr} {v : β},
      goMapGet l k = some v → (k, v) ∈ l := by
  intro l
  induction l with
  | nil =>
    intro k v h
    rw [show goMapGet ([] : List (GoStr × β)) k = none from rfl] at h
    exact absurd h (by simp)
  | cons kv t ih =>
    intro k v h
    obtain ⟨k1, v1⟩ := kv
    unfold goMapGet at h
    cases hg : goMapGet t k with
    | some w =>
      rw [hg] at h
      dsimp only at h
      cases h
      exact List.mem_cons_of_mem _ (ih hg)
    | none =>
      rw [hg] at h
      dsimp only at h
      split_ifs at h with hk
      cases h
      cases hk
      exact List.mem_cons_self _ t

theorem goMapGet_uniform {β : Type} :
    ∀ {l : List (GoStr × β)} {k : GoStr} {c : β},
      k ∈ l.map Prod.fst → (∀ kv ∈ l, kv.1 = k → kv.2 = c) →
      goMapGet l k = some c := by
  intro l
  induction l with
  | nil => intro k c h _; exact absurd h (by simp)
  | cons kv t ih =>
    intro k c hmem huni
    unfold goMapGet
    cases hg : goMapGet t k with
    | some v =>
      dsimp only
      have hv : (k, v) ∈ t := goMapGet_mem hg
      have hvc : v = c := huni (k, v) (List.mem_cons_of_mem kv hv) rfl
      rw [hvc]
    | none =>
      dsimp only
      have hkt : k ∉ t.map Prod.fst := by
        intro hk
        have h2 := (goMapGet_isSome_iff t k).mpr hk
        rw [hg] at h2
        exact absurd h2 (by simp)
      have hmem2 : k = kv.1 ∨ k ∈ t.map Prod.fst := by
        rw [List.map_cons, List.mem_cons] at hmem
        exact hmem
      rcases hmem2 with hk | hk
      · rw [if_pos hk.symm, huni kv (List.mem_cons_self kv t) hk.symm]
      · exact absurd hk hkt

theorem goMapGet_congr_keys {β : Type} :
    ∀ {l2 l : List (GoStr × β)},
      l2.map Prod.fst = l.map Prod.fst →
      ∀ k, ((goMapGet l2 k).isSome ↔ (goMapGet l k).isSome) := by
  intro l2 l hkeys k
  rw [goMapGet_isSome_iff, goMapGet_isSome_iff, hkeys]

/-- Rewriting every entry's value to the (last-wins) lookup of its key
keeps every lookup unchanged. -/
theorem goMapGet_rewrite {β : Type} (d : β) (l : List (GoStr × β)) (k : GoStr) :
    goMapGet (l.map fun kv => (kv.1, (goMapGet l kv.1).getD d)) k
      = goMapGet l k := by
  have hfst : (Prod.fst ∘ fun kv : GoStr × β => (kv.1, (goMapGet l kv.1).getD d))
      = Prod.fst := by
    funext kv
    rfl
  have hkeys : (l.map fun kv => (kv.1, (goMapGet l kv.1).getD d)).map Prod.fst
      = l.map Prod.fst := by
    rw [List.map_map, hfst]
  by_cases hmem : k ∈ l.map Prod.fst
  · cases hg : goMapGet l k with
    | none =>
      have h2 := (goMapGet_isSome_iff l k).mpr hmem
      rw [hg] at h2
      exact absurd h2 (by simp)
    | some v =>
      apply goMapGet_uniform (by rw [hkeys]; exact hmem)
      intro kv hkv hk1
      rcases List.mem_map.mp hkv with ⟨kv0, hkv0, hkveq⟩
      cases hkveq
      dsimp only at hk1 ⊢
      rw [hk1, hg]
      rfl
  · have h1 : goMapGet l k = none :=
      Option.not_isSome_iff_eq_none.mp
        (fun hs => hmem ((goMapGet_isSome_iff l k).mp hs))
    have h2 : goMapGet (l.map fun kv => (kv.1, (goMapGet l kv.1).getD d)) k
        = none :=
      Option.not_isSome_iff_eq_none.mp
        (fun hs => hmem (hkeys ▸ (goMapGet_isSome_iff _ k).mp hs))
    rw [h1, h2]

/-! ### Encoder-shape lemmas for the round-trip claim -/

theorem mem_of_getLast {α : Type} {l : List α} {a : α}
    (h : l.getLast? = some a) : a ∈ l := by
  rw [← List.head?_reverse] at h
  exact List.mem_reverse.mp (List.mem_of_mem_head? h)

theorem intercalate_one {α : Type} (sep : List α) (a : List α) :
    List.intercalate sep [a] = a := by
  simp [List.intercalate]

theorem intercalate_two {α : Type} (c : α) (a b : List α) (t : List (List α)) :
    List.intercalate [c] (a :: b :: t) = a ++ c :: List.intercalate [c] (b :: t) := by
  simp [List.intercalate, List.intersperse]

theorem mem_intercalate {α : Type} {c : α} :
    ∀ {parts : List (List α)} {d : α}, d ∈ List.intercalate [c] parts →
      d = c ∨ ∃ p ∈ parts, d ∈ p := by
  intro parts
  induction parts with
  | nil => intro d h; simp [List.intercalate] at h
  | cons a t ih =>
    intro d h
    cases t with
    | nil =>
      rw [intercalate_one] at h
      exact Or.inr ⟨a, List.mem_cons_self a [], h⟩
    | cons b t2 =>
      rw [intercalate_two] at h
      rcases List.mem_append.mp h with h | h
      · exact Or.inr ⟨a, List.mem_cons_self a _, h⟩
      · rcases List.mem_cons.mp h with h | h
        · exact Or.inl h
        · rcases ih h with h | ⟨p, hp, hd⟩
          · exact Or.inl h
          · exact Or.inr ⟨p, List.mem_cons_of_mem a hp, hd⟩

theorem intercalate_last_ne_nil {α : Type} {c : α} :
    ∀ (ps : List (List α)) (p : List α), p ≠ [] →
      List.intercalate [c] (ps ++ [p]) ≠ [] := by
  intro ps p hp
  cases ps with
  | nil =>
    rw [List.nil_append, intercalate_one]
    exact hp
  | cons a rest =>
    cases hr : rest ++ [p] with
    | nil => exact absurd hr (by simp)
    | cons b t2 =>
      rw [List.cons_append, hr, intercalate_two]
      simp

theorem intercalate_getLast {α : Type} {c : α} :
    ∀ (ps : List (List α)) (p : List α), p ≠ [] →
      (List.intercalate [c] (ps ++ [p])).getLast? = p.getLast? := by
  intro ps
  induction ps with
  | nil => intro p _; rw [List.nil_append, intercalate_one]
  | cons a rest ih =>
    intro p hp
    cases hr : rest ++ [p] with
    | nil => exact absurd hr (by simp)
    | cons b t2 =>
      rw [List.cons_append, hr, intercalate_two, ← hr,
        List.getLast?_append_of_ne_nil a (by simp),
        show c :: List.intercalate [c] (rest ++ [p])
          = [c] ++ List.intercalate [c] (rest ++ [p]) from rfl,
        List.getLast?_append_of_ne_nil [c]
          (intercalate_last_ne_nil rest p hp),
        ih p hp]

theorem flatMap_sep {α β : Type} (c : α) (f : β → List α) :
    ∀ (ks : List β), ks ≠ [] →
      ks.flatMap (fun k => c :: f k) = c :: List.intercalate [c] (ks.map f) := by
  intro ks
  induction ks with
  | nil => intro h; exact absurd rfl h
  | cons a t ih =>
    intro _
    cases t with
    | nil => simp [List.flatMap, intercalate_one]
    | cons b t2 =>
      rw [List.flatMap_cons, ih (by simp)]
      simp only [List.map_cons]
      rw [intercalate_two]
      simp

theorem quoteScan_clean :
    ∀ (m : GoStr) (i : Nat) (rest : GoStr),
      (∀ c ∈ m, ¬ c = '"' ∧ ¬ c = '\\') →
      quoteScan (m ++ '"' :: rest) i false = some (i + m.length) := by
  intro m
  induction m with
  | nil =>
    intro i rest _
    rw [List.nil_append, quoteScan]
    rfl
  | cons d m2 ih =>
    intro i rest hfree
    have hd := hfree d (List.mem_cons_self d m2)
    rw [List.cons_append, quoteScan, if_neg (by simp), if_neg (by simp [hd.2]),
      if_neg (by simp [hd.1]), ih (i + 1) rest
        (fun c hc => hfree c (List.mem_cons_of_mem d hc))]
    congr 1
    simp only [List.length_cons]
    omega

theorem goSplitOn_no_occ {c : Char} {s : GoStr} (h : c ∉ s) :
    goSplitOn s [c] = [s] := by
  unfold goSplitOn
  rw [if_neg (by simp), goSplitOnFuel, goIndexOf_single_none h]

theorem goReplaceAll_no_occ {c : Char} {s : GoStr} (x : GoStr) (h : c ∉ s) :
    goReplaceAll s [c] x = s := by
  unfold goReplaceAll
  rw [goSplitOn_no_occ h, intercalate_one]

theorem goHasPfx_not_mem {c : Char} {s : GoStr} (h : c ∉ s) :
    goHasPfx s [c] = false := by
  cases s with
  | nil => rfl
  | cons d t =>
    exact goHasPfx_single_false (fun he => h (he ▸ List.mem_cons_self d t))

theorem digit_not_space {c : Char} (h : 48 ≤ c.toNat) : isGoSpace c = false := by
  unfold isGoSpace
  simp only [Bool.or_eq_false_iff, decide_eq_false_iff_not]
  omega

theorem parseFieldValue_fixpoint {value v : GoStr}
    (h : parseFieldValue value = .ok v) : parseFieldValue v = .ok v := by
  unfold parseFieldValue at h
  by_cases h1 : (goHasPfx value ['"'] && goHasSfx value ['"']) = true
  · rw [if_pos h1] at h
    by_cases h2 : value.length < 2
    · rw [if_pos h2] at h
      cases h
    · rw [if_neg h2] at h
      cases h
      unfold parseFieldValue
      rw [if_pos h1, if_neg h2]
  · rw [if_neg h1] at h
    by_cases h3 : goHasSfx value ['i'] = true
    · rw [if_pos h3] at h
      by_cases h4 : (goParseInt64 value.dropLast).isSome = true
      · rw [if_pos h4] at h
        cases h
        unfold parseFieldValue
        rw [if_neg h1, if_pos h3, if_pos h4]
      · rw [if_neg h4] at h
        cases h
    · rw [if_neg h3] at h
      by_cases h5 : (goToLower value = gostr "true"
          || goToLower value = gostr "false") = true
      · rw [if_pos h5] at h
        cases h
        rcases (by simpa using h5 :
            goToLower value = gostr "true" ∨ goToLower value = gostr "false")
          with hv | hv
        · rw [hv]
          decide
        · rw [hv]
          decide
      · rw [if_neg h5] at h
        by_cases h6 : goParseFloatOk value = true
        · rw [if_pos h6] at h
          cases h
          unfold parseFieldValue
          rw [if_neg h1, if_neg h3, if_neg h5, if_pos h6]
        · rw [if_neg h6] at h
          cases h

/-! ### Invariants established by a successful `parse` -/

theorem goHasSfx_ne_nil {s : GoStr} {c : Char}
    (h : goHasSfx s [c] = true) : s ≠ [] := by
  intro he
  subst he
  rw [show goHasSfx ([] : GoStr) [c] = false from rfl] at h
  cases h

theorem stripTagQuotes_sub {v w : GoStr} (h : stripTagQuotes v = .ok w) :
    ∀ c ∈ w, c ∈ v := by
  unfold stripTagQuotes at h
  split_ifs at h with h1 h2
  · cases h
    intro c hc
    exact List.mem_of_mem_drop (List.mem_of_mem_take hc)
  · cases h
    intro c hc
    exact hc

theorem goSplitOn_ne_nil (s sep : GoStr) : goSplitOn s sep ≠ [] := by
  unfold goSplitOn
  split_ifs
  · simp
  · rw [goSplitOnFuel]
    cases goIndexOf s sep <;> simp

theorem goParseInt64_bounds {s : GoStr} {v : Int}
    (h : goParseInt64 s = some v) : -(2 ^ 63) ≤ v ∧ v ≤ 2 ^ 63 - 1 := by
  unfold goParseInt64 at h
  dsimp only at h
  split_ifs at h with h1 h2 h3 h4 h5
  · rw [Option.some.injEq] at h
    subst h
    simpa using h4
  · rw [Option.some.injEq] at h
    subst h
    simpa using h5

/-- Character-subset facts for a successful `parseMeasurementTags`: both
the measurement and the tag string are built from characters of the
input token. -/
theorem parseMeasurementTags_sub {mt m ts : GoStr}
    (h : parseMeasurementTags mt = .ok (m, ts)) :
    (∀ c ∈ m, c ∈ mt) ∧ ∀ c ∈ ts, c ∈ mt := by
  unfold parseMeasurementTags at h
  split_ifs at h with h1
  · cases hq : quoteScan (mt.drop 1) 1 false with
    | none => rw [hq] at h; cases h
    | some i =>
      rw [hq] at h
      dsimp only at h
      split_ifs at h with h2 h3
      · cases h
        exact ⟨fun c hc => List.mem_of_mem_drop (List.mem_of_mem_take hc),
          fun c hc => List.mem_of_mem_drop hc⟩
      · cases h
        exact ⟨fun c hc => List.mem_of_mem_drop (List.mem_of_mem_take hc),
          fun c hc => absurd hc (by simp)⟩
  · cases hs : goSplitN2 mt [','] with
    | nil => exact absurd hs (goSplitN2_ne_nil mt [','])
    | cons a r1 =>
      cases r1 with
      | nil =>
        rw [hs] at h
        cases h
        obtain ⟨heq, -⟩ := goSplitN2_single_inv hs
        exact ⟨fun c hc => heq ▸ hc, fun c hc => absurd hc (by simp)⟩
      | cons b r2 =>
        cases r2 with
        | nil =>
          rw [hs] at h
          cases h
          obtain ⟨-, heq⟩ := goSplitN2_pair_inv hs
          constructor
          · intro c hc
            rw [heq]
            exact List.mem_append_left _ hc
          · intro c hc
            rw [heq]
            exact List.mem_append_right _ (List.mem_cons_of_mem ',' hc)
        | cons d r3 =>
          rw [hs] at h
          cases h

/-- A successfully classified field value is nonempty, whitespace-trim
fixed, free of spaces and commas (given a clean input literal), and a
fixpoint of the classifier. -/
theorem parseFieldValue_props {value v : GoStr}
    (h : parseFieldValue value = .ok v) (htrim : goTrimSpace value = value)
    (hsp : ' ' ∉ value) (hcm : ',' ∉ value) :
    v ≠ [] ∧ goTrimSpace v = v ∧ ' ' ∉ v ∧ ',' ∉ v ∧
      parseFieldValue v = .ok v := by
  have hfix := parseFieldValue_fixpoint h
  unfold parseFieldValue at h
  split_ifs at h with h1 h2 h3 h4 h5 h6
  · cases h
    exact ⟨fun he => h2 (by rw [he]; decide), htrim, hsp, hcm, hfix⟩
  · cases h
    exact ⟨goHasSfx_ne_nil h3, htrim, hsp, hcm, hfix⟩
  · cases h
    rcases (by simpa using h5 :
        goToLower value = gostr "true" ∨ goToLower value = gostr "false")
      with hv | hv
    · rw [hv] at hfix ⊢
      exact ⟨by decide, by decide, by decide, by decide, hfix⟩
    · rw [hv] at hfix ⊢
      exact ⟨by decide, by decide, by decide, by decide, hfix⟩
  · cases h
    refine ⟨fun he => ?_, htrim, hsp, hcm, hfix⟩
    rw [he] at h6
    exact absurd h6 (by decide)

/-- Shape invariant of a tag entry produced by `parse`: nonempty trimmed
key without space, comma or equals, and a nonempty value without space
or comma. -/
def tagEntryInv (kv : GoStr × GoStr) : Prop :=
  kv.1 ≠ [] ∧ kv.2 ≠ [] ∧ ' ' ∉ kv.1 ∧ ',' ∉ kv.1 ∧ '=' ∉ kv.1 ∧
    goTrimSpace kv.1 = kv.1 ∧ ' ' ∉ kv.2 ∧ ',' ∉ kv.2

/-- Shape invariant of a field entry produced by `parse`: nonempty
trimmed key without space, comma or equals, and a nonempty trimmed value
without space or comma that is a fixpoint of the value classifier. -/
def fieldEntryInv (kv : GoStr × GoStr) : Prop :=
  kv.1 ≠ [] ∧ ' ' ∉ kv.1 ∧ ',' ∉ kv.1 ∧ '=' ∉ kv.1 ∧
    goTrimSpace kv.1 = kv.1 ∧ kv.2 ≠ [] ∧ ' ' ∉ kv.2 ∧ ',' ∉ kv.2 ∧
    goTrimSpace kv.2 = kv.2 ∧ parseFieldValue kv.2 = .ok kv.2

theorem parseTagPairs_inv :
    ∀ {parts : List GoStr} {tags : List (GoStr × GoStr)},
      parseTagPairs parts = .ok tags →
      (∀ p ∈ parts, ' ' ∉ p ∧ ',' ∉ p) →
      ∀ kv ∈ tags, tagEntryInv kv := by
  intro parts
  induction parts with
  | nil =>
    intro tags h _
    cases h
    intro kv hkv
    exact absurd hkv (by simp)
  | cons pair rest ih =>
    intro tags h hclean
    unfold parseTagPairs at h
    cases hs : goSplitN2 pair ['='] with
    | nil => exact absurd hs (goSplitN2_ne_nil _ _)
    | cons k0 r1 =>
      cases r1 with
      | nil =>
        rw [hs] at h
        cases h
      | cons v0 r2 =>
        cases r2 with
        | cons d r3 =>
          rw [hs] at h
          cases h
        | nil =>
          rw [hs] at h
          dsimp only at h
          obtain ⟨hke, heq⟩ := goSplitN2_pair_inv hs
          obtain ⟨v, hstrip, h2⟩ := GoResult.bind_eq_ok h
          split_ifs at h2 with hkey hval
          obtain ⟨l, hrest, h3⟩ := GoResult.bind_eq_ok h2
          cases h3
          have hp := hclean pair (List.mem_cons_self _ _)
          have hk0sp : ' ' ∉ k0 := fun hc =>
            hp.1 (by rw [heq]; exact List.mem_append_left _ hc)
          have hk0cm : ',' ∉ k0 := fun hc =>
            hp.2 (by rw [heq]; exact List.mem_append_left _ hc)
          have hv0sp : ' ' ∉ v0 := fun hc =>
            hp.1 (by rw [heq]; exact List.mem_append_right _ (List.mem_cons_of_mem _ hc))
          have hv0cm : ',' ∉ v0 := fun hc =>
            hp.2 (by rw [heq]; exact List.mem_append_right _ (List.mem_cons_of_mem _ hc))
          have hvsub := stripTagQuotes_sub hstrip
          intro kv hkv
          rcases List.mem_cons.mp hkv with hkv | hkv
          · subst hkv
            exact ⟨hkey, hval,
              fun hc => hk0sp (mem_of_mem_goTrimSpace hc),
              fun hc => hk0cm (mem_of_mem_goTrimSpace hc),
              fun hc => hke (mem_of_mem_goTrimSpace hc),
              goTrimSpace_idem k0,
              fun hc => hv0sp (mem_of_mem_goTrimSpace (hvsub ' ' hc)),
              fun hc => hv0cm (mem_of_mem_goTrimSpace (hvsub ',' hc))⟩
          · exact ih hrest
              (fun p hp2 => hclean p (List.mem_cons_of_mem _ hp2)) kv hkv

theorem parseFieldPairs_inv :
    ∀ {flds : List GoStr} {fields : List (GoStr × GoStr)},
      parseFieldPairs flds = .ok fields →
      (∀ p ∈ flds, ' ' ∉ p ∧ ',' ∉ p) →
      (∀ kv ∈ fields, fieldEntryInv kv) ∧ (flds ≠ [] → fields ≠ []) := by
  intro flds
  induction flds with
  | nil =>
    intro fields h _
    cases h
    exact ⟨fun kv hkv => absurd hkv (by simp), fun hne => absurd rfl hne⟩
  | cons fld rest ih =>
    intro fields h hclean
    unfold parseFieldPairs at h
    cases hs : goSplitN2 fld ['='] with
    | nil => exact absurd hs (goSplitN2_ne_nil _ _)
    | cons k0 r1 =>
      cases r1 with
      | nil =>
        rw [hs] at h
        cases h
      | cons v0 r2 =>
        cases r2 with
        | cons d r3 =>
          rw [hs] at h
          cases h
        | nil =>
          rw [hs] at h
          dsimp only at h
          obtain ⟨hke, heq⟩ := goSplitN2_pair_inv hs
          split_ifs at h with hkey
          obtain ⟨v, hval, h2⟩ := GoResult.bind_eq_ok h
          obtain ⟨l, hrest, h3⟩ := GoResult.bind_eq_ok h2
          cases h3
          have hp := hclean fld (List.mem_cons_self _ _)
          have hk0sp : ' ' ∉ k0 := fun hc =>
            hp.1 (by rw [heq]; exact List.mem_append_left _ hc)
          have hk0cm : ',' ∉ k0 := fun hc =>
            hp.2 (by rw [heq]; exact List.mem_append_left _ hc)
          have hv0sp : ' ' ∉ v0 := fun hc =>
            hp.1 (by rw [heq]; exact List.mem_append_right _ (List.mem_cons_of_mem _ hc))
          have hv0cm : ',' ∉ v0 := fun hc =>
            hp.2 (by rw [heq]; exact List.mem_append_right _ (List.mem_cons_of_mem _ hc))
          obtain ⟨hvne, hvtrim, hvsp, hvcm, hvfix⟩ :=
            parseFieldValue_props hval (goTrimSpace_idem v0)
              (fun hc => hv0sp (mem_of_mem_goTrimSpace hc))
              (fun hc => hv0cm (mem_of_mem_goTrimSpace hc))
          refine ⟨?_, fun _ => by simp⟩
          intro kv hkv
          rcases List.mem_cons.mp hkv with hkv | hkv
          · subst hkv
            exact ⟨hkey,
              fun hc => hk0sp (mem_of_mem_goTrimSpace hc),
              fun hc => hk0cm (mem_of_mem_goTrimSpace hc),
              fun hc => hke (mem_of_mem_goTrimSpace hc),
              goTrimSpace_idem k0, hvne, hvsp, hvcm, hvtrim, hvfix⟩
          · exact (ih hrest
              (fun p hp2 => hclean p (List.mem_cons_of_mem _ hp2))).1 kv hkv

theorem goSplitN2_shapes (s sep : GoStr) :
    (∃ a, goSplitN2 s sep = [a]) ∨ ∃ a b, goSplitN2 s sep = [a, b] := by
  unfold goSplitN2
  cases goIndexOf s sep with
  | none => exact Or.inl ⟨s, rfl⟩
  | some i => exact Or.inr ⟨_, _, rfl⟩

theorem goSplitN2_head_no_sep (c : Char) (s : GoStr) :
    c ∉ (goSplitN2 s [c]).headD [] := by
  unfold goSplitN2
  cases hidx : goIndexOf s [c] with
  | none =>
    dsimp only [List.headD]
    exact goIndexOf_single_none_inv hidx
  | some i =>
    dsimp only [List.headD]
    exact goIndexOf_single_take hidx

/-- Everything a successful `parse` guarantees about the shape of its
record: nonempty space-free measurement, well-shaped tag and field
entries, at least one field, and an int64-bounded timestamp. -/
theorem parse_invariants {input : GoStr} {lp : LineProtocol}
    (hp : parse input = .ok lp) :
    lp.measurement ≠ [] ∧ ' ' ∉ lp.measurement ∧
    (∀ kv ∈ lp.tags, tagEntryInv kv) ∧
    (∀ kv ∈ lp.fields, fieldEntryInv kv) ∧
    lp.fields ≠ [] ∧ lp.timestamp ≤ 2 ^ 63 - 1 := by
  unfold parse at hp
  dsimp only at hp
  split at hp
  · rename_i xs mt rest heq
    have hmtsp : ' ' ∉ mt := (goSplitN2_pair_inv heq).1
    cases hmt : parseMeasurementTags mt with
    | error e =>
      rw [hmt] at hp
      cases hp
    | panicked =>
      rw [hmt] at hp
      cases hp
    | ok p =>
      obtain ⟨m, tagsStr⟩ := p
      rw [hmt] at hp
      dsimp only at hp
      obtain ⟨hmsub, htsub⟩ := parseMeasurementTags_sub hmt
      by_cases hm : m = []
      · rw [if_pos hm] at hp
        cases hp
      · rw [if_neg hm] at hp
        cases htags : (if tagsStr = [] then GoResult.ok []
            else parseTagPairs (goSplitOn tagsStr [','])) with
        | error e =>
          rw [htags] at hp
          cases hp
        | panicked =>
          rw [htags] at hp
          cases hp
        | ok tags =>
          rw [htags] at hp
          dsimp only at hp
          rw [if_neg (goSplitN2_ne_nil rest [' '])] at hp
          cases hflds : parseFieldPairs
              (goSplitOn ((goSplitN2 rest [' ']).headD []) [',']) with
          | error e =>
            rw [hflds] at hp
            cases hp
          | panicked =>
            rw [hflds] at hp
            cases hp
          | ok fields =>
            rw [hflds] at hp
            dsimp only at hp
            have htagsinv : ∀ kv ∈ tags, tagEntryInv kv := by
              split_ifs at htags with ht
              · cases htags
                intro kv hkv
                exact absurd hkv (by simp)
              · refine parseTagPairs_inv htags ?_
                intro p hp2
                refine ⟨fun hc => ?_, goSplitOn_no_sep_parts hp2⟩
                exact hmtsp (htsub ' ' (mem_of_mem_goSplitOn hp2 hc))
            have hfldinv := parseFieldPairs_inv hflds (fun p hp2 =>
              ⟨fun hc => goSplitN2_head_no_sep ' ' rest
                  (mem_of_mem_goSplitOn hp2 hc),
                goSplitOn_no_sep_parts hp2⟩)
            have hfne : fields ≠ [] := hfldinv.2 (goSplitOn_ne_nil _ _)
            have hmsp : ' ' ∉ m := fun hc => hmtsp (hmsub ' ' hc)
            cases hsr : goSplitN2 rest [' '] with
            | nil => exact absurd hsr (goSplitN2_ne_nil _ _)
            | cons a r =>
              cases r with
              | nil =>
                rw [hsr] at hp
                dsimp only at hp
                cases hp
                exact ⟨hm, hmsp, htagsinv, hfldinv.1, hfne,
                  show (0 : Int) ≤ 2 ^ 63 - 1 by decide⟩
              | cons b r2 =>
                cases r2 with
                | cons d r3 =>
                  rcases goSplitN2_shapes rest [' '] with ⟨x, hx⟩ | ⟨x, y, hxy⟩
                  · rw [hsr] at hx
                    simp at hx
                  · rw [hsr] at hxy
                    simp at hxy
                | nil =>
                  rw [hsr] at hp
                  dsimp only at hp
                  cases hts : goParseInt64 b with
                  | none =>
                    rw [hts] at hp
                    cases hp
                  | some ts =>
                    rw [hts] at hp
                    cases hp
                    exact ⟨hm, hmsp, htagsinv, hfldinv.1, hfne,
                      (goParseInt64_bounds hts).2⟩
  · cases hp

/-! ### Reparsing an encoded line -/

/-- Reparsing the measurement-plus-tags chunk emitted by `encode` (after
the tag string, when present, has been reduced to `',' :: r`). -/
theorem parseMeasurementTags_encoded (m mtok tagsTail : GoStr)
    (hmne : m ≠ []) (hmq : ∀ c ∈ m, ¬ c = '"' ∧ ¬ c = '\\')
    (hmtok : mtok = if goContains m [','] = true then '"' :: (m ++ ['"']) else m)
    (htail : tagsTail = [] ∨ ∃ r, tagsTail = ',' :: r) :
    parseMeasurementTags (mtok ++ tagsTail) = .ok (m, tagsTail.drop 1) := by
  by_cases hc : goContains m [','] = true
  · rw [hmtok, if_pos hc]
    have hform : ('"' :: (m ++ ['"'])) ++ tagsTail
        = '"' :: (m ++ '"' :: tagsTail) := by simp
    rw [hform]
    unfold parseMeasurementTags
    rw [if_pos (by simp [goHasPfx])]
    have hdrop1 : ('"' :: (m ++ '"' :: tagsTail)).drop 1
        = m ++ '"' :: tagsTail := rfl
    rw [hdrop1, quoteScan_clean m 1 tagsTail hmq]
    dsimp only
    rcases htail with ht | ⟨r, ht⟩
    · subst ht
      rw [if_neg (by simp; omega)]
      rw [show 1 + m.length - 1 = m.length from by omega, List.take_left]
      rfl
    · subst ht
      rw [if_pos (by simp; omega)]
      have hidx : ('"' :: (m ++ '"' :: ',' :: r))[1 + m.length + 1]?
          = some ',' := by
        have hform2 : '"' :: (m ++ '"' :: ',' :: r)
            = ('"' :: m ++ ['"']) ++ (',' :: r) := by simp
        rw [hform2, List.getElem?_append_right (by simp; omega)]
        have hz : 1 + m.length + 1 - ('"' :: m ++ ['"']).length = 0 := by
          simp
          omega
        rw [hz]
        simp
      rw [if_neg (by rw [hidx]; simp)]
      have hdrop2 : ('"' :: (m ++ '"' :: ',' :: r)).drop (1 + m.length + 2)
          = r := by
        have hform3 : '"' :: (m ++ '"' :: ',' :: r)
            = ('"' :: m ++ ['"', ',']) ++ r := by simp
        rw [hform3, show 1 + m.length + 2 = ('"' :: m ++ ['"', ',']).length
          from by simp; omega]
        exact List.drop_left _ _
      rw [hdrop2, show 1 + m.length - 1 = m.length from by omega,
        List.take_left]
      rfl
  · rw [hmtok, if_neg hc]
    have hcm : ',' ∉ m := by
      intro hmem
      apply hc
      unfold goContains
      cases hidx : goIndexOf m [','] with
      | some i => rfl
      | none => exact absurd hmem (goIndexOf_single_none_inv hidx)
    cases m with
    | nil => exact absurd rfl hmne
    | cons c0 t0 =>
      have hc0 : ¬ c0 = '"' := (hmq c0 (List.mem_cons_self c0 t0)).1
      unfold parseMeasurementTags
      rw [List.cons_append, if_neg (by rw [goHasPfx_single_false hc0]; simp),
        ← List.cons_append]
      rcases htail with ht | ⟨r, ht⟩
      · subst ht
        rw [List.append_nil, goSplitN2_no_sep hcm]
        rfl
      · subst ht
        rw [goSplitN2_append r hcm]
        rfl

/-- Reparsing the re-assembled tag pairs: every entry splits back into
its own key and value. -/
theorem parseTagPairs_encoded :
    ∀ (l : List (GoStr × GoStr)),
      (∀ kv ∈ l, kv.1 ≠ [] ∧ kv.2 ≠ [] ∧ '=' ∉ kv.1 ∧
        goTrimSpace kv.1 = kv.1 ∧ goTrimSpace kv.2 = kv.2 ∧
        ¬(goHasPfx kv.2 ['"'] = true ∧ goHasSfx kv.2 ['"'] = true)) →
      parseTagPairs (l.map fun kv => kv.1 ++ '=' :: kv.2) = .ok l := by
  intro l
  induction l with
  | nil => intro _; rfl
  | cons kv t ih =>
    intro hprops
    obtain ⟨hk, hv, hke, hkt, hvt, hvq⟩ := hprops kv (List.mem_cons_self _ _)
    rw [List.map_cons]
    unfold parseTagPairs
    rw [goSplitN2_append kv.2 hke]
    dsimp only
    rw [hkt, hvt]
    have hstrip : stripTagQuotes kv.2 = .ok kv.2 := by
      unfold stripTagQuotes
      rw [if_neg (by simp only [Bool.and_eq_true]; exact hvq)]
    rw [hstrip, GoResult.bind_ok, if_neg hk, if_neg hv,
      ih (fun kv2 hkv2 => hprops kv2 (List.mem_cons_of_mem _ hkv2)),
      GoResult.bind_ok]

/-- Reparsing the re-assembled field pairs. -/
theorem parseFieldPairs_encoded :
    ∀ (l : List (GoStr × GoStr)),
      (∀ kv ∈ l, kv.1 ≠ [] ∧ '=' ∉ kv.1 ∧ goTrimSpace kv.1 = kv.1 ∧
        goTrimSpace kv.2 = kv.2 ∧ parseFieldValue kv.2 = .ok kv.2) →
      parseFieldPairs (l.map fun kv => kv.1 ++ '=' :: kv.2) = .ok l := by
  intro l
  induction l with
  | nil => intro _; rfl
  | cons kv t ih =>
    intro hprops
    obtain ⟨hk, hke, hkt, hvt, hvfix⟩ := hprops kv (List.mem_cons_self _ _)
    rw [List.map_cons]
    unfold parseFieldPairs
    rw [goSplitN2_append kv.2 hke]
    dsimp only
    rw [hkt, hvt, if_neg hk, hvfix, GoResult.bind_ok,
      ih (fun kv2 hkv2 => hprops kv2 (List.mem_cons_of_mem _ hkv2)),
      GoResult.bind_ok]

theorem goContains_eq_false {c : Char} {s : GoStr} (h : c ∉ s) :
    goContains s [c] = false := by
  unfold goContains
  rw [goIndexOf_single_none h]
  rfl

theorem flatMap_congr_mem {α β : Type} :
    ∀ {l : List α} {f g : α → List β},
      (∀ a ∈ l, f a = g a) → l.flatMap f = l.flatMap g := by
  intro l
  induction l with
  | nil => intro f g _; rfl
  | cons a t ih =>
    intro f g h
    rw [List.flatMap_cons, List.flatMap_cons, h a (List.mem_cons_self a t),
      ih (fun b hb => h b (List.mem_cons_of_mem a hb))]

theorem map_congr_mem {α β : Type} :
    ∀ {l : List α} {f g : α → β},
      (∀ a ∈ l, f a = g a) → l.map f = l.map g := by
  intro l
  induction l with
  | nil => intro f g _; rfl
  | cons a t ih =>
    intro f g h
    rw [List.map_cons, List.map_cons, h a (List.mem_cons_self a t),
      ih (fun b hb => h b (List.mem_cons_of_mem a hb))]

theorem intercalate_cons_ne_nil {α : Type} {c : α} {p : List α}
    (hp : p ≠ []) (rest : List (List α)) :
    List.intercalate [c] (p :: rest) ≠ [] := by
  cases rest with
  | nil =>
    rw [intercalate_one]
    exact hp
  | cons b t =>
    rw [intercalate_two]
    simp

theorem getLast?_cons_of_ne_nil {α : Type} {a : α} {l : List α}
    (h : l ≠ []) : (a :: l).getLast? = l.getLast? := by
  rw [show a :: l = [a] ++ l from rfl, List.getLast?_append_of_ne_nil [a] h]

/-- Reparsing a fully encoded line built from a clean measurement, clean
tag entries and clean field entries recovers the record exactly
(`encode` emits the timestamp only when positive, and `parse` defaults a
missing one to `0`, so a nonnegative timestamp survives). -/
theorem parse_encoded (m : GoStr) (lt lf : List (GoStr × GoStr)) (ts : Int)
    (hmne : m ≠ []) (hmsp : ' ' ∉ m)
    (hmq : ∀ c ∈ m, ¬ c = '"' ∧ ¬ c = '\\')
    (hmtr : goTrimSpace m = m)
    (hts0 : 0 ≤ ts) (hts63 : ts ≤ 2 ^ 63 - 1)
    (hlt : ∀ kv ∈ lt, tagEntryInv kv ∧ goTrimSpace kv.2 = kv.2 ∧
      ¬(goHasPfx kv.2 ['"'] = true ∧ goHasSfx kv.2 ['"'] = true))
    (hlf : ∀ kv ∈ lf, fieldEntryInv kv) (hlfne : lf ≠ []) :
    parse (((if goContains m [','] = true then '"' :: (m ++ ['"']) else m)
        ++ lt.flatMap fun kv => ',' :: (kv.1 ++ '=' :: kv.2))
      ++ ' ' :: (List.intercalate [',']
          (lf.map fun kv => kv.1 ++ '=' :: kv.2)
        ++ if 0 < ts then ' ' :: natToChars ts.toNat else [])) =
      .ok ⟨m, lt, lf, ts⟩ := by
  have hpt : ∀ x ∈ lt.map (fun kv => kv.1 ++ '=' :: kv.2),
      ',' ∉ x ∧ ' ' ∉ x ∧ x ≠ [] := by
    intro x hx
    obtain ⟨kv, hkv, hxeq⟩ := List.mem_map.mp hx
    obtain ⟨⟨hk1, hk2, hsp1, hcm1, hq1, htr1, hsp2, hcm2⟩, -, -⟩ := hlt kv hkv
    cases hxeq
    refine ⟨fun hc => ?_, fun hc => ?_, by simp⟩
    · rcases List.mem_append.mp hc with hc | hc
      · exact hcm1 hc
      · rcases List.mem_cons.mp hc with hc | hc
        · exact absurd hc (by decide)
        · exact hcm2 hc
    · rcases List.mem_append.mp hc with hc | hc
      · exact hsp1 hc
      · rcases List.mem_cons.mp hc with hc | hc
        · exact absurd hc (by decide)
        · exact hsp2 hc
  have hpf : ∀ x ∈ lf.map (fun kv => kv.1 ++ '=' :: kv.2),
      ',' ∉ x ∧ ' ' ∉ x ∧ x ≠ [] := by
    intro x hx
    obtain ⟨kv, hkv, hxeq⟩ := List.mem_map.mp hx
    obtain ⟨hk1, hsp1, hcm1, hq1, htr1, hv1, hsp2, hcm2, htr2, hfx⟩ :=
      hlf kv hkv
    cases hxeq
    refine ⟨fun hc => ?_, fun hc => ?_, by simp⟩
    · rcases List.mem_append.mp hc with hc | hc
      · exact hcm1 hc
      · rcases List.mem_cons.mp hc with hc | hc
        · exact absurd hc (by decide)
        · exact hcm2 hc
    · rcases List.mem_append.mp hc with hc | hc
      · exact hsp1 hc
      · rcases List.mem_cons.mp hc with hc | hc
        · exact absurd hc (by decide)
        · exact hsp2 hc
  have hmtok_sp : ' ' ∉
      (if goContains m [','] = true then '"' :: (m ++ ['"']) else m) := by
    split_ifs
    · intro hc
      simp at hc
      exact hmsp hc
    · exact hmsp
  have htags_sp : ' ' ∉ lt.flatMap (fun kv => ',' :: (kv.1 ++ '=' :: kv.2)) := by
    intro hc
    rw [List.mem_flatMap] at hc
    obtain ⟨kv, hkv, hc⟩ := hc
    rcases List.mem_cons.mp hc with hc | hc
    · exact absurd hc (by decide)
    · exact (hpt (kv.1 ++ '=' :: kv.2)
        (List.mem_map.mpr ⟨kv, hkv, rfl⟩)).2.1 hc
  have hfields_sp : ' ' ∉ List.intercalate [',']
      (lf.map fun kv => kv.1 ++ '=' :: kv.2) := by
    intro hc
    rcases mem_intercalate hc with hc | ⟨p, hp, hc⟩
    · exact absurd hc (by decide)
    · exact (hpf p hp).2.1 hc
  have hfieldsN_ne : List.intercalate [',']
      (lf.map fun kv => kv.1 ++ '=' :: kv.2) ≠ [] := by
    cases lf with
    | nil => exact absurd rfl hlfne
    | cons kv0 lf' =>
      rw [List.map_cons]
      exact intercalate_cons_ne_nil (by simp) _
  have hhead : ∀ c : Char,
      ((((if goContains m [','] = true then '"' :: (m ++ ['"']) else m)
        ++ lt.flatMap fun kv => ',' :: (kv.1 ++ '=' :: kv.2))
      ++ ' ' :: (List.intercalate [',']
          (lf.map fun kv => kv.1 ++ '=' :: kv.2)
        ++ if 0 < ts then ' ' :: natToChars ts.toNat else [])).head?
        = some c) → isGoSpace c = false := by
    intro c hc
    rw [List.append_assoc] at hc
    by_cases hcm : goContains m [','] = true
    · rw [if_pos hcm, List.cons_append, List.head?_cons] at hc
      cases hc
      decide
    · rw [if_neg hcm] at hc
      cases hm2 : m with
      | nil => exact absurd hm2 hmne
      | cons c0 t0 =>
        rw [hm2, List.cons_append, List.head?_cons] at hc
        cases hc
        apply goTrimSpace_head (s := m)
        rw [hmtr, hm2]
        rfl
  have hlast : ∀ c : Char,
      ((((if goContains m [','] = true then '"' :: (m ++ ['"']) else m)
        ++ lt.flatMap fun kv => ',' :: (kv.1 ++ '=' :: kv.2))
      ++ ' ' :: (List.intercalate [',']
          (lf.map fun kv => kv.1 ++ '=' :: kv.2)
        ++ if 0 < ts then ' ' :: natToChars ts.toNat else [])).getLast?
        = some c) → isGoSpace c = false := by
    intro c hc
    by_cases hpos : 0 < ts
    · rw [if_pos hpos, List.getLast?_append_of_ne_nil _ (by simp),
        getLast?_cons_of_ne_nil (by simp),
        List.getLast?_append_of_ne_nil _ (by simp),
        getLast?_cons_of_ne_nil (natToChars_ne_nil _)] at hc
      exact digit_not_space (natToChars_digits _ c (mem_of_getLast hc)).1
    · rw [if_neg hpos, List.append_nil,
        List.getLast?_append_of_ne_nil _ (by simp),
        getLast?_cons_of_ne_nil hfieldsN_ne] at hc
      obtain ⟨ps, plast, hdec⟩ :
          ∃ ps p, lf.map (fun kv => kv.1 ++ '=' :: kv.2) = ps ++ [p] := by
        rcases List.eq_nil_or_concat
            (lf.map fun kv => kv.1 ++ '=' :: kv.2) with h2 | ⟨l2, a, h2⟩
        · exact absurd h2 (fun h3 => hfieldsN_ne (by rw [h3]; rfl))
        · exact ⟨l2, a, by rw [h2, List.concat_eq_append]⟩
      have hplast_mem : plast ∈ lf.map (fun kv => kv.1 ++ '=' :: kv.2) := by
        rw [hdec]
        exact List.mem_append_right _ (List.mem_cons_self _ _)
      obtain ⟨kv, hkv, hkveq⟩ := List.mem_map.mp hplast_mem
      obtain ⟨-, -, -, -, -, hv2ne, -, -, hv2tr, -⟩ := hlf kv hkv
      rw [hdec, intercalate_getLast ps plast
          (by rw [← hkveq]; simp), ← hkveq,
        List.getLast?_append_of_ne_nil _ (by simp),
        getLast?_cons_of_ne_nil hv2ne] at hc
      apply goTrimSpace_last (s := kv.2)
      rw [hv2tr]
      exact hc
  have hTrim := goTrimSpace_eq_self hhead hlast
  have hdropTags : (lt.flatMap fun kv => ',' :: (kv.1 ++ '=' :: kv.2)).drop 1
      = List.intercalate [','] (lt.map fun kv => kv.1 ++ '=' :: kv.2) := by
    cases lt with
    | nil => rfl
    | cons kv0 lt' =>
      rw [flatMap_sep ',' _ _ (by simp)]
      rfl
  have hltprops : ∀ kv ∈ lt, kv.1 ≠ [] ∧ kv.2 ≠ [] ∧ '=' ∉ kv.1 ∧
      goTrimSpace kv.1 = kv.1 ∧ goTrimSpace kv.2 = kv.2 ∧
      ¬(goHasPfx kv.2 ['"'] = true ∧ goHasSfx kv.2 ['"'] = true) := by
    intro kv hkv
    obtain ⟨⟨h1, h2, h3, h4, h5, h6, h7, h8⟩, h9, h10⟩ := hlt kv hkv
    exact ⟨h1, h2, h5, h6, h9, h10⟩
  have htagsRes : (if List.intercalate [',']
        (lt.map fun kv => kv.1 ++ '=' :: kv.2) = [] then
      GoResult.ok ([] : List (GoStr × GoStr))
    else parseTagPairs (goSplitOn (List.intercalate [',']
        (lt.map fun kv => kv.1 ++ '=' :: kv.2)) [','])) = .ok lt := by
    cases lt with
    | nil => rfl
    | cons kv0 lt' =>
      rw [List.map_cons,
        if_neg (intercalate_cons_ne_nil (by simp) _),
        goSplitOn_intercalate _ (by simp)
          (fun x hx => (hpt x (by rw [List.map_cons]; exact hx)).1)]
      show parseTagPairs (List.map (fun kv => kv.1 ++ '=' :: kv.2)
        (kv0 :: lt')) = .ok (kv0 :: lt')
      exact parseTagPairs_encoded _ hltprops
  have hfldprops : ∀ kv ∈ lf, kv.1 ≠ [] ∧ '=' ∉ kv.1 ∧
      goTrimSpace kv.1 = kv.1 ∧ goTrimSpace kv.2 = kv.2 ∧
      parseFieldValue kv.2 = .ok kv.2 := by
    intro kv hkv
    obtain ⟨h1, h2, h3, h4, h5, h6, h7, h8, h9, h10⟩ := hlf kv hkv
    exact ⟨h1, h4, h5, h9, h10⟩
  have hfieldsRes : parseFieldPairs (goSplitOn (List.intercalate [',']
      (lf.map fun kv => kv.1 ++ '=' :: kv.2)) [',']) = .ok lf := by
    rw [goSplitOn_intercalate _
        (fun h3 => hlfne (List.map_eq_nil_iff.mp h3))
        (fun x hx => (hpf x hx).1),
      parseFieldPairs_encoded _ hfldprops]
  unfold parse
  dsimp only
  rw [hTrim, goSplitN2_append _ (fun hc => by
    rcases List.mem_append.mp hc with hc2 | hc2
    · exact hmtok_sp hc2
    · exact htags_sp hc2)]
  dsimp only
  rw [parseMeasurementTags_encoded m _ _ hmne hmq rfl (by
    cases lt with
    | nil => exact Or.inl rfl
    | cons kv0 lt' =>
      refine Or.inr ⟨(kv0.1 ++ '=' :: kv0.2)
        ++ lt'.flatMap fun kv => ',' :: (kv.1 ++ '=' :: kv.2), ?_⟩
      rw [List.flatMap_cons]
      rfl)]
  dsimp only
  rw [if_neg hmne, hdropTags, htagsRes]
  dsimp only
  by_cases hpos : 0 < ts
  · rw [if_pos hpos, goSplitN2_append _ hfields_sp,
      if_neg (by simp)]
    dsimp only
    simp only [List.headD_cons]
    rw [hfieldsRes]
    dsimp only
    rw [goParseInt64_natToChars hpos hts63]
  · have hts0' : ts = 0 := by omega
    subst hts0'
    rw [if_neg hpos, List.append_nil, goSplitN2_no_sep hfields_sp,
      if_neg (by simp)]
    dsimp only
    simp only [List.headD_cons]
    rw [hfieldsRes]

/-- C1 corrected: the round trip `parse (encode (parse L))` reproduces
the decoded record's measurement, timestamp, tag map and field map
(last-write-wins lookups, matching Go's map semantics) for every line
accepted by `parse` whose record has a nonnegative timestamp, a
measurement free of `"` and `\` that is `TrimSpace`-fixed, and tag
values that are `TrimSpace`-fixed and not themselves quote-wrapped.
Outside those conditions the round trip genuinely fails
(`roundTripCounterexample`): `encode` drops `timestamp ≤ 0`, re-quotes
measurements asymmetrically, and `parse` re-strips quotes and re-trims
whitespace of tag values. -/
theorem roundTripAmended (input : GoStr) (lp : LineProtocol)
    (hp : parse input = .ok lp)
    (hts : 0 ≤ lp.timestamp)
    (hmq : ∀ c ∈ lp.measurement, ¬ c = '"' ∧ ¬ c = '\\')
    (hmtr : goTrimSpace lp.measurement = lp.measurement)
    (htv : ∀ kv ∈ lp.tags, goTrimSpace kv.2 = kv.2 ∧
      ¬(goHasPfx kv.2 ['"'] = true ∧ goHasSfx kv.2 ['"'] = true)) :
    ∃ lp' : LineProtocol, parse (encode lp) = .ok lp' ∧
      lp'.measurement = lp.measurement ∧ lp'.timestamp = lp.timestamp ∧
      (∀ k, goMapGet lp'.tags k = goMapGet lp.tags k) ∧
      (∀ k, goMapGet lp'.fields k = goMapGet lp.fields k) := by
  obtain ⟨hmne, hmsp, htagsinv, hfldsinv, hfne, hts63⟩ := parse_invariants hp
  obtain ⟨m, T, F, ts⟩ := lp
  dsimp only at hts hmq hmtr htv hmne hmsp htagsinv hfldsinv hfne hts63
  refine ⟨⟨m, T.map (fun kv => (kv.1, (goMapGet T kv.1).getD [])),
    F.map (fun kv => (kv.1, (goMapGet F kv.1).getD [])), ts⟩, ?_, rfl, rfl,
    fun k => goMapGet_rewrite [] T k, fun k => goMapGet_rewrite [] F k⟩
  have hquote : '"' ∉ m := fun hc => (hmq '"' hc).1 rfl
  have hTlook : ∀ kv ∈ T, ∃ v1, goMapGet T kv.1 = some v1 ∧
      (kv.1, v1) ∈ T := by
    intro kv hkv
    cases hg : goMapGet T kv.1 with
    | none =>
      have hsome := (goMapGet_isSome_iff T kv.1).mpr
        (List.mem_map.mpr ⟨kv, hkv, rfl⟩)
      rw [hg] at hsome
      exact absurd hsome (by simp)
    | some v1 => exact ⟨v1, rfl, goMapGet_mem hg⟩
  have hFlook : ∀ kv ∈ F, ∃ v1, goMapGet F kv.1 = some v1 ∧
      (kv.1, v1) ∈ F := by
    intro kv hkv
    cases hg : goMapGet F kv.1 with
    | none =>
      have hsome := (goMapGet_isSome_iff F kv.1).mpr
        (List.mem_map.mpr ⟨kv, hkv, rfl⟩)
      rw [hg] at hsome
      exact absurd hsome (by simp)
    | some v1 => exact ⟨v1, rfl, goMapGet_mem hg⟩
  have htagsEq : ((T.map Prod.fst).flatMap fun k =>
        [','] ++ k ++ ['='] ++ encodeTagValue ((goMapGet T k).getD []))
      = (T.map fun kv => (kv.1, (goMapGet T kv.1).getD [])).flatMap
          fun kv => ',' :: (kv.1 ++ '=' :: kv.2) := by
    rw [List.flatMap_map, List.flatMap_map]
    apply flatMap_congr_mem
    intro kv hkv
    obtain ⟨v1, hg, hmem1⟩ := hTlook kv hkv
    have hsp2 : ' ' ∉ v1 := (htagsinv (kv.1, v1) hmem1).2.2.2.2.2.2.1
    rw [hg, Option.getD_some]
    have henc : encodeTagValue v1 = v1 := by
      unfold encodeTagValue
      rw [goContains_eq_false hsp2, if_neg (by simp)]
    rw [henc]
    simp
  have hfieldsEq : List.intercalate [','] ((F.map Prod.fst).map fun k =>
        k ++ ['='] ++ (goMapGet F k).getD [])
      = List.intercalate [','] ((F.map fun kv =>
          (kv.1, (goMapGet F kv.1).getD [])).map
            fun kv => kv.1 ++ '=' :: kv.2) := by
    congr 1
    rw [List.map_map, List.map_map]
    apply map_congr_mem
    intro kv hkv
    simp [Function.comp]
  have hfmt : goFormatInt ts = natToChars ts.toNat := by
    unfold goFormatInt
    rw [if_neg (by omega)]
  have hl't : ∀ kv ∈ T.map (fun kv => (kv.1, (goMapGet T kv.1).getD [])),
      tagEntryInv kv ∧ goTrimSpace kv.2 = kv.2 ∧
        ¬(goHasPfx kv.2 ['"'] = true ∧ goHasSfx kv.2 ['"'] = true) := by
    intro kv hkv
    obtain ⟨kv0, hkv0, hkveq⟩ := List.mem_map.mp hkv
    obtain ⟨v1, hg, hmem1⟩ := hTlook kv0 hkv0
    cases hkveq
    rw [hg, Option.getD_some]
    exact ⟨htagsinv (kv0.1, v1) hmem1, (htv (kv0.1, v1) hmem1).1,
      (htv (kv0.1, v1) hmem1).2⟩
  have hl'f : ∀ kv ∈ F.map (fun kv => (kv.1, (goMapGet F kv.1).getD [])),
      fieldEntryInv kv := by
    intro kv hkv
    obtain ⟨kv0, hkv0, hkveq⟩ := List.mem_map.mp hkv
    obtain ⟨v1, hg, hmem1⟩ := hFlook kv0 hkv0
    cases hkveq
    rw [hg, Option.getD_some]
    exact hfldsinv (kv0.1, v1) hmem1
  have hl'fne : F.map (fun kv => (kv.1, (goMapGet F kv.1).getD [])) ≠ [] :=
    fun h3 => hfne (List.map_eq_nil_iff.mp h3)
  have hENC : encode ⟨m, T, F, ts⟩
      = (((if goContains m [','] = true then '"' :: (m ++ ['"']) else m)
          ++ (T.map fun kv => (kv.1, (goMapGet T kv.1).getD [])).flatMap
              fun kv => ',' :: (kv.1 ++ '=' :: kv.2))
        ++ ' ' :: (List.intercalate [','] ((F.map fun kv =>
            (kv.1, (goMapGet F kv.1).getD [])).map
              fun kv => kv.1 ++ '=' :: kv.2)
          ++ if 0 < ts then ' ' :: natToChars ts.toNat else [])) := by
    unfold encode
    dsimp only
    rw [goContains_eq_false hmsp, goReplaceAll_no_occ _ hquote, htagsEq,
      hfieldsEq, hfmt]
    simp only [Bool.false_or, List.append_assoc, List.cons_append,
      List.nil_append, List.singleton_append]
  rw [hENC]
  exact parse_encoded m _ _ ts hmne hmsp hmq hmtr hts hts63 hl't hl'f hl'fne

/-- Witness for the amended case-handling claim: the upper-case query
`SHOW MEASUREMENTS` is recognised. -/
theorem caseHandlingAmendedWitness :
    interpretQuery (gostr "SHOW MEASUREMENTS") 0 = .showMeasurements :=
  caseHandlingAmended.1 (gostr "SHOW MEASUREMENTS") 0 (by decide)

/-- C1 counterexample: `Decode("cpu v=1 -5")` succeeds with timestamp
`-5`, but `String()` omits every non-positive timestamp, so re-decoding
the serialized line yields timestamp `0`: the round trip does not
reproduce the record. -/
theorem roundTripCounterexample :
    parse (gostr "cpu v=1 -5")
      = .ok ⟨gostr "cpu", [], [(gostr "v", gostr "1")], -5⟩ ∧
    encode ⟨gostr "cpu", [], [(gostr "v", gostr "1")], -5⟩
      = gostr "cpu v=1" ∧
    parse (gostr "cpu v=1")
      = .ok ⟨gostr "cpu", [], [(gostr "v", gostr "1")], 0⟩ ∧
    (-5 : Int) ≠ 0 :=
  ⟨by decide, by decide, by decide, by decide⟩

/-- Witness for the amended round trip at the concrete accepted line
`cpu,host=a v=42i 100`. -/
theorem roundTripAmendedWitness :
    ∃ lp' : LineProtocol,
      parse (encode ⟨gostr "cpu", [(gostr "host", gostr "a")],
        [(gostr "v", gostr "42i")], 100⟩) = .ok lp' ∧
      lp'.measurement = gostr "cpu" ∧ (lp'.timestamp : Int) = 100 ∧
      (∀ k, goMapGet lp'.tags k
        = goMapGet [(gostr "host", gostr "a")] k) ∧
      (∀ k, goMapGet lp'.fields k
        = goMapGet [(gostr "v", gostr "42i")] k) :=
  roundTripAmended (gostr "cpu,host=a v=42i 100")
    ⟨gostr "cpu", [(gostr "host", gostr "a")],
      [(gostr "v", gostr "42i")], 100⟩
    (by decide) (by decide) (by decide) (by decide) (by decide)

end Refluxdb
